import Mathlib

/-!
# Shallow embedding of the dhanvikri admin tool (src/main.py)

This file embeds the text-processing core of the repository: the
`DataManager` codec (`extract_dealers_data`, `extract_regions`,
`update_dealers_in_html`, `update_regions_in_html`) and the add/edit form
handlers from `main`, and proves the frozen claims about them.

Python strings are modelled as `List Char` (a Python `str` is a sequence of
Unicode code points).  The regular expressions used by the code are all of a
very restricted shape (a literal prefix followed by a non-greedy wildcard up
to a literal terminator, or a literal prefix followed by `(\w+)` and a
back-reference), so each one is embedded as a first-order scanning function
with exactly the leftmost, non-overlapping semantics of `re.search`,
`re.sub` and `re.findall` on those patterns.

The Python standard-library pieces the code relies on are embedded
faithfully for the inputs this program can produce:
* `json.dumps(..., indent=12, ensure_ascii=False)` (`dumpsVal`),
* `json.loads` (`jsonLoads`; numeric values are kept as their source lexeme
  in the `Json.num` constructor since no claim concerns numbers, and
  `\uXXXX` escapes denoting UTF-16 surrogates are out of scope),
* the `re.sub` replacement-template expansion, which processes backslash
  escapes in the replacement string and raises `re.error` on bad escapes
  and on group references (the patterns here have no groups)
  (`applyTemplate`; `none` models the raised exception, which the
  surrounding `try/except` turns into the fallback result),
* `sorted` on strings (`pySorted`: code-point lexicographic order).

Python's `\w` is modelled on the ASCII range `[A-Za-z0-9_]`; non-ASCII word
characters are outside the scope of this development.
-/

namespace Dhanvikri

/-! ## Basic character and list helpers -/

/-- Python regex `\w` (ASCII range): letters, digits, underscore. -/
def isWordChar (c : Char) : Bool :=
  ('a' ≤ c && c ≤ 'z') || ('A' ≤ c && c ≤ 'Z') || ('0' ≤ c && c ≤ '9') || c == '_'

/-- If `lit` is a leading literal of `s`, return the remainder. -/
def chopLit : List Char → List Char → Option (List Char)
  | [], s => some s
  | _ :: _, [] => none
  | p :: ps, c :: cs => if p = c then chopLit ps cs else none

/-- Scan `s` left to right for the first occurrence of the literal
`c0 :: ct`; return the text before it and the text after it.  This is the
semantics of a non-greedy `[\s\S]*?` followed by that literal. -/
def findLit (c0 : Char) (ct : List Char) : List Char → Option (List Char × List Char)
  | [] => none
  | c :: t =>
    match chopLit (c0 :: ct) (c :: t) with
    | some r => some ([], r)
    | none => (findLit c0 ct t).map fun q => (c :: q.1, q.2)

/-! ## JSON values

`Json.num` records the source lexeme of a numeric literal rather than a
numeric value; no data handled by the claims contains numbers. -/

inductive Json where
  | null
  | bool (b : Bool)
  | num (lex : String)
  | str (s : String)
  | arr (xs : List Json)
  | obj (kvs : List (String × Json))
/- Boolean equality test on `Json` (written by hand: `deriving` does not
handle the nested occurrence of `Json` under `List`). -/

mutual

def jsonBeq : Json → Json → Bool
  | .null, .null => true
  | .bool a, .bool b => a == b
  | .num a, .num b => a == b
  | .str a, .str b => a == b
  | .arr a, .arr b => jsonListBeq a b
  | .obj a, .obj b => jsonKvsBeq a b
  | _, _ => false

def jsonListBeq : List Json → List Json → Bool
  | [], [] => true
  | x :: xs, y :: ys => jsonBeq x y && jsonListBeq xs ys
  | _, _ => false

def jsonKvsBeq : List (String × Json) → List (String × Json) → Bool
  | [], [] => true
  | (k1, v1) :: xs, (k2, v2) :: ys => k1 == k2 && jsonBeq v1 v2 && jsonKvsBeq xs ys
  | _, _ => false

end

/-! ## json.loads -/

/-- JSON whitespace accepted by `json.loads` between tokens. -/
def isJsonWs (c : Char) : Bool := c = ' ' || c = '\t' || c = '\n' || c = '\r'

def skipWs (s : List Char) : List Char := s.dropWhile isJsonWs

def hexVal (c : Char) : Option Nat :=
  if '0' ≤ c ∧ c ≤ '9' then some (c.toNat - 48)
  else if 'a' ≤ c ∧ c ≤ 'f' then some (c.toNat - 87)
  else if 'A' ≤ c ∧ c ≤ 'F' then some (c.toNat - 55)
  else none

/- Body of a JSON string after the opening quote: scan to the closing
quote, decoding escapes; raw control characters are rejected (strict mode,
the default for `json.loads`).  The escape handling is split into its own
function so that the top-level scan is a plain one-step match. -/

mutual

def parseStringBody : List Char → Option (List Char × List Char)
  | [] => none
  | c :: t =>
    if c = '"' then some ([], t)
    else if c = '\\' then parseStringEsc t
    else if c.toNat < 32 then none
    else (parseStringBody t).map fun p => (c :: p.1, p.2)

/-- Decoding of one string escape (the characters after `\`). -/
def parseStringEsc : List Char → Option (List Char × List Char)
  | [] => none
  | e :: t2 =>
    if e = '"' then (parseStringBody t2).map fun p => ('"' :: p.1, p.2)
    else if e = '\\' then (parseStringBody t2).map fun p => ('\\' :: p.1, p.2)
    else if e = '/' then (parseStringBody t2).map fun p => ('/' :: p.1, p.2)
    else if e = 'b' then (parseStringBody t2).map fun p => (Char.ofNat 8 :: p.1, p.2)
    else if e = 'f' then (parseStringBody t2).map fun p => (Char.ofNat 12 :: p.1, p.2)
    else if e = 'n' then (parseStringBody t2).map fun p => ('\n' :: p.1, p.2)
    else if e = 'r' then (parseStringBody t2).map fun p => (Char.ofNat 13 :: p.1, p.2)
    else if e = 't' then (parseStringBody t2).map fun p => ('\t' :: p.1, p.2)
    else if e = 'u' then
      match t2 with
      | h1 :: h2 :: h3 :: h4 :: t3 =>
        match hexVal h1, hexVal h2, hexVal h3, hexVal h4 with
        | some a, some b, some c3, some d =>
          (parseStringBody t3).map fun p =>
            (Char.ofNat (a * 4096 + b * 256 + c3 * 16 + d) :: p.1, p.2)
        | _, _, _, _ => none
      | _ => none
    else none

end

/-- Lexeme of a JSON number: `-?(0|[1-9][0-9]*)(\.[0-9]+)?([eE][+-]?[0-9]+)?`. -/
def parseNumberLex (s : List Char) : Option (List Char × List Char) :=
  let (neg, s1) : List Char × List Char :=
    match s with
    | '-' :: t => (['-'], t)
    | _ => ([], s)
  match s1 with
  | [] => none
  | c :: t =>
    if c = '0' ∨ ('1' ≤ c ∧ c ≤ '9') then
      let (ip, s2) : List Char × List Char :=
        if c = '0' then (['0'], t)
        else (c :: t.takeWhile Char.isDigit, t.dropWhile Char.isDigit)
      let (fr, s3) : List Char × List Char :=
        match s2 with
        | '.' :: u =>
          match u.takeWhile Char.isDigit with
          | [] => ([], s2)
          | d => ('.' :: d, u.dropWhile Char.isDigit)
        | _ => ([], s2)
      -- a fractional point with no digits makes the whole number end before it
      let (ex, s4) : List Char × List Char :=
        match s3 with
        | 'e' :: u =>
          match u with
          | '+' :: v => (match v.takeWhile Char.isDigit with
            | [] => ([], s3)
            | d => ('e' :: '+' :: d, v.dropWhile Char.isDigit))
          | '-' :: v => (match v.takeWhile Char.isDigit with
            | [] => ([], s3)
            | d => ('e' :: '-' :: d, v.dropWhile Char.isDigit))
          | _ => (match u.takeWhile Char.isDigit with
            | [] => ([], s3)
            | d => ('e' :: d, u.dropWhile Char.isDigit))
        | 'E' :: u =>
          match u with
          | '+' :: v => (match v.takeWhile Char.isDigit with
            | [] => ([], s3)
            | d => ('E' :: '+' :: d, v.dropWhile Char.isDigit))
          | '-' :: v => (match v.takeWhile Char.isDigit with
            | [] => ([], s3)
            | d => ('E' :: '-' :: d, v.dropWhile Char.isDigit))
          | _ => (match u.takeWhile Char.isDigit with
            | [] => ([], s3)
            | d => ('E' :: d, u.dropWhile Char.isDigit))
        | _ => ([], s3)
      some (neg ++ ip ++ fr ++ ex, s4)
    else none

/-- Re-insertion of an object member: a duplicate key keeps its original
position but takes the new value, as in a Python `dict`. -/
def upsert : List (String × Json) → String → Json → List (String × Json)
  | [], k, v => [(k, v)]
  | (k0, v0) :: t, k, v => if k0 = k then (k0, v) :: t else (k0, v0) :: upsert t k v

def dedupKeys (l : List (String × Json)) : List (String × Json) :=
  l.foldl (fun acc p => upsert acc p.1 p.2) []

mutual

/-- `json.loads` value parser.  `fuel` strictly decreases on every recursive
call; `jsonLoads` supplies more fuel than any input can consume, so the
bound is never the reason a parse fails. -/
def parseValue : Nat → List Char → Option (Json × List Char)
  | 0, _ => none
  | fuel + 1, s =>
    match skipWs s with
    | 'n' :: 'u' :: 'l' :: 'l' :: r => some (.null, r)
    | 't' :: 'r' :: 'u' :: 'e' :: r => some (.bool true, r)
    | 'f' :: 'a' :: 'l' :: 's' :: 'e' :: r => some (.bool false, r)
    | 'N' :: 'a' :: 'N' :: r => some (.num "NaN", r)
    | 'I' :: 'n' :: 'f' :: 'i' :: 'n' :: 'i' :: 't' :: 'y' :: r => some (.num "Infinity", r)
    | '-' :: 'I' :: 'n' :: 'f' :: 'i' :: 'n' :: 'i' :: 't' :: 'y' :: r =>
      some (.num "-Infinity", r)
    | '"' :: t => (parseStringBody t).map fun p => (.str (String.mk p.1), p.2)
    | '[' :: t =>
      (match skipWs t with
      | ']' :: r => some (.arr [], r)
      | u => (parseItems fuel u).map fun p => (.arr p.1, p.2))
    | '{' :: t =>
      (match skipWs t with
      | '}' :: r => some (.obj [], r)
      | u => (parseMembers fuel u).map fun p => (.obj (dedupKeys p.1), p.2))
    | s1 => (parseNumberLex s1).map fun p => (.num (String.mk p.1), p.2)

/-- One or more comma-separated values followed by `]`. -/
def parseItems : Nat → List Char → Option (List Json × List Char)
  | 0, _ => none
  | fuel + 1, s =>
    match parseValue fuel s with
    | none => none
    | some (v, r) =>
      match skipWs r with
      | ',' :: r2 => (parseItems fuel r2).map fun p => (v :: p.1, p.2)
      | ']' :: r2 => some ([v], r2)
      | _ => none

/-- One or more `"key": value` members followed by `}`. -/
def parseMembers : Nat → List Char → Option (List (String × Json) × List Char)
  | 0, _ => none
  | fuel + 1, s =>
    match skipWs s with
    | '"' :: t =>
      match parseStringBody t with
      | none => none
      | some (k, r) =>
        match skipWs r with
        | ':' :: r2 =>
          match parseValue fuel r2 with
          | none => none
          | some (v, r3) =>
            match skipWs r3 with
            | ',' :: r4 => (parseMembers fuel r4).map fun p => ((String.mk k, v) :: p.1, p.2)
            | '}' :: r4 => some ([(String.mk k, v)], r4)
            | _ => none
        | _ => none
    | _ => none

end

/-- `json.loads`: parse one value and require only whitespace after it.
Each unit of fuel is consumed only together with progress through the
input, and never more than two units per character, so `4*|s|+4` behaves as
an unbounded budget. -/
def jsonLoads (s : List Char) : Option Json :=
  match parseValue (4 * s.length + 4) s with
  | none => none
  | some (v, r) => if skipWs r = [] then some v else none

/-! ## json.dumps(..., indent=12, ensure_ascii=False) -/

def hexDigit (n : Nat) : Char :=
  if n < 10 then Char.ofNat (48 + n) else Char.ofNat (87 + n)

/-- String escaping of `json.dumps` with `ensure_ascii=False`: only `"`,
`\` and control characters are escaped. -/
def escapeChar (c : Char) : List Char :=
  if c = '"' then ['\\', '"']
  else if c = '\\' then ['\\', '\\']
  else if c = '\n' then ['\\', 'n']
  else if c = '\t' then ['\\', 't']
  else if c = Char.ofNat 13 then ['\\', 'r']
  else if c = Char.ofNat 8 then ['\\', 'b']
  else if c = Char.ofNat 12 then ['\\', 'f']
  else if c.toNat < 32 then
    ['\\', 'u', '0', '0', hexDigit (c.toNat / 16), hexDigit (c.toNat % 16)]
  else [c]

def escapeStr (s : List Char) : List Char := (s.map escapeChar).flatten

def dumpsStr (s : String) : List Char := '"' :: escapeStr s.toList ++ ['"']

/-- `'\n'` followed by the indentation of nesting level `lvl` (the indent
unit is 12 spaces, from `indent=12`). -/
def jsonNl (lvl : Nat) : List Char := '\n' :: List.replicate (12 * lvl) ' '

mutual

/-- `json.dumps(v, indent=12, ensure_ascii=False)` at nesting level `lvl`:
non-empty containers put every element on its own indented line; empty
containers print as `[]` / `{}`; the item separator is `,` and the key
separator is `: `. -/
def dumpsVal : Nat → Json → List Char
  | _, .null => "null".toList
  | _, .bool true => "true".toList
  | _, .bool false => "false".toList
  | _, .num lex => lex.toList
  | _, .str s => dumpsStr s
  | _, .arr [] => "[]".toList
  | lvl, .arr (x :: xs) =>
    '[' :: jsonNl (lvl + 1) ++ dumpsItems (lvl + 1) (x :: xs) ++ jsonNl lvl ++ [']']
  | _, .obj [] => "{}".toList
  | lvl, .obj (kv :: kvs) =>
    '{' :: jsonNl (lvl + 1) ++ dumpsMembers (lvl + 1) (kv :: kvs) ++ jsonNl lvl ++ ['}']

def dumpsItems : Nat → List Json → List Char
  | _, [] => []
  | lvl, [x] => dumpsVal lvl x
  | lvl, x :: y :: ys => dumpsVal lvl x ++ ',' :: jsonNl lvl ++ dumpsItems lvl (y :: ys)

def dumpsMembers : Nat → List (String × Json) → List Char
  | _, [] => []
  | lvl, [(k, v)] => dumpsStr k ++ ':' :: ' ' :: dumpsVal lvl v
  | lvl, (k, v) :: kv :: kvs =>
    dumpsStr k ++ ':' :: ' ' :: dumpsVal lvl v ++ ',' :: jsonNl lvl ++ dumpsMembers lvl (kv :: kvs)

end

/-! ## The data model (spec section 3) -/

structure Paddy where
  name : String
  price : String
  unit : String
deriving Repr, DecidableEq

structure Record where
  name : String
  contact : String
  rating : String
  regions : List String
  paddyTypes : List Paddy
deriving Repr, DecidableEq

/-- The dict built by the UI for one paddy type, in insertion order. -/
def paddyToJson (p : Paddy) : Json :=
  .obj [("name", .str p.name), ("price", .str p.price), ("unit", .str p.unit)]

/-- The dict built by the UI for one dealer, in insertion order. -/
def recordToJson (r : Record) : Json :=
  .obj [("name", .str r.name), ("contact", .str r.contact), ("rating", .str r.rating),
        ("regions", .arr (r.regions.map .str)), ("paddyTypes", .arr (r.paddyTypes.map paddyToJson))]

/-! ## re.sub replacement-template expansion

`re.sub(pattern, repl, s)` expands backslash escapes in `repl` before
substituting.  The patterns used by this program contain no groups, so any
group reference (`\1`…`\99`, `\g<…>`) raises `re.error`; so does a bad
escape (`\` + an unknown ASCII letter, e.g. the `\u` that `json.dumps`
emits for most control characters) and a trailing `\`.  `none` models the
raised exception.  `\0` starts an octal escape of up to two further octal
digits. -/

def octVal (c : Char) : Option Nat :=
  if '0' ≤ c ∧ c ≤ '7' then some (c.toNat - 48) else none

mutual

def applyTemplate : List Char → Option (List Char)
  | [] => some []
  | c :: t => if c = '\\' then applyEsc t else (applyTemplate t).map (c :: ·)

/-- Expansion of one backslash escape (the character after `\` and the
text after that). -/
def applyEsc : List Char → Option (List Char)
  | [] => none
  | e :: t2 =>
    if e = '\\' then (applyTemplate t2).map ('\\' :: ·)
    else if e = 'a' then (applyTemplate t2).map (Char.ofNat 7 :: ·)
    else if e = 'b' then (applyTemplate t2).map (Char.ofNat 8 :: ·)
    else if e = 'f' then (applyTemplate t2).map (Char.ofNat 12 :: ·)
    else if e = 'n' then (applyTemplate t2).map ('\n' :: ·)
    else if e = 'r' then (applyTemplate t2).map (Char.ofNat 13 :: ·)
    else if e = 't' then (applyTemplate t2).map ('\t' :: ·)
    else if e = 'v' then (applyTemplate t2).map (Char.ofNat 11 :: ·)
    else if e = '0' then
      match t2 with
      | [] => some [Char.ofNat 0]
      | d1 :: t3 =>
        match octVal d1 with
        | none => (applyTemplate (d1 :: t3)).map (Char.ofNat 0 :: ·)
        | some a =>
          match t3 with
          | [] => some [Char.ofNat a]
          | d2 :: t4 =>
            match octVal d2 with
            | none => (applyTemplate (d2 :: t4)).map (Char.ofNat a :: ·)
            | some b => (applyTemplate t4).map (Char.ofNat (8 * a + b) :: ·)
    else if e.isDigit then none
    else if e.isAlpha then none
    else (applyTemplate t2).map fun l => '\\' :: e :: l

end

/-! ## The two span-shaped regexes

Both `const dealersData = \[[\s\S]*?\];` and
`<select class="area-select" id="areaSelect">[\s\S]*?</select>` are a
literal opening, a non-greedy wildcard, and a literal close.  A match at a
position is the opening literal followed by everything up to the first
occurrence of the close; `re.search` takes the leftmost position where
this succeeds, and `re.sub` replaces every such non-overlapping match,
resuming the scan after each match. -/

/-- Try to match `openLit ++ «anything, non-greedy» ++ (c0 :: ct)` at the
start of `s`; return the wildcard text and the remainder after the close. -/
def matchSpan (openLit : List Char) (c0 : Char) (ct : List Char) (s : List Char) :
    Option (List Char × List Char) :=
  match chopLit openLit s with
  | none => none
  | some r => findLit c0 ct r

/-- Leftmost match: `re.search`.  Returns the text before the match, the
wildcard text and the text after the match. -/
def findSpan (openLit : List Char) (c0 : Char) (ct : List Char) :
    List Char → Option (List Char × List Char × List Char)
  | [] => none
  | c :: t =>
    match matchSpan openLit c0 ct (c :: t) with
    | some (mid, r) => some ([], mid, r)
    | none => (findSpan openLit c0 ct t).map fun q => (c :: q.1, q.2.1, q.2.2)

/-- `re.sub` on a span-shaped pattern with the (already expanded)
replacement `rep`: replace every non-overlapping match, left to right.
The fuel argument only serves structural termination: every match consumes
at least one character, so `s.length` steps always suffice (see
`subSpanAllF_fuel_irrelevant`). -/
def subSpanAllF (openLit : List Char) (c0 : Char) (ct rep : List Char) :
    Nat → List Char → List Char
  | 0, s => s
  | fuel + 1, s =>
    match findSpan openLit c0 ct s with
    | none => s
    | some (pre, _, r) => pre ++ rep ++ subSpanAllF openLit c0 ct rep fuel r

def subSpanAll (openLit : List Char) (c0 : Char) (ct rep : List Char) (s : List Char) :
    List Char :=
  subSpanAllF openLit c0 ct rep s.length s

/-! ## DataManager.extract_dealers_data / update_dealers_in_html -/

/-- The literal part of `const dealersData = (\[[\s\S]*?\]);`. -/
def stmtLit : List Char := "const dealersData = ".toList

/-- Opening literal of the statement pattern: the fixed text plus `\[`. -/
def stmtOpenLit : List Char := stmtLit ++ ['[']

/-- `re.sub(r'(\w+):', r'"\1":', s)` scanner: `run` is the pending
(reversed) maximal run of word characters read so far.  A run immediately
followed by `:` is wrapped in quotes and the colon consumed; any other
terminator flushes the run unchanged.  The engine finds exactly the
maximal word runs followed by `:` because a shortened run would still end
in a word character, never `:`. -/
def qkGo (run : List Char) : List Char → List Char
  | [] => run.reverse
  | c :: t =>
    if isWordChar c then qkGo (c :: run) t
    else if c = ':' ∧ run ≠ [] then '"' :: run.reverse ++ '"' :: ':' :: qkGo [] t
    else run.reverse ++ c :: qkGo [] t

/-- `re.sub(r'(\w+):', r'"\1":', s)`: every maximal run of word characters
that is immediately followed by `:` is wrapped in quotes (the run and the
colon are consumed; scanning resumes after the colon). -/
def quoteKeys (s : List Char) : List Char := qkGo [] s

/-- The garbled rupee glyph `re.sub(r'â‚¹', '₹', ...)`:
U+00E2 U+201A U+00B9 → U+20B9 (literal pattern, non-overlapping,
left to right). -/
def replaceRupee : List Char → List Char
  | a :: b :: c :: t =>
    if a = Char.ofNat 0xe2 ∧ b = Char.ofNat 0x201a ∧ c = Char.ofNat 0xb9 then
      Char.ofNat 0x20b9 :: replaceRupee t
    else a :: replaceRupee (b :: c :: t)
  | s => s

/-- The garbled star glyph: U+00E2 U+00AD → U+2B50. -/
def replaceStar : List Char → List Char
  | a :: b :: t =>
    if a = Char.ofNat 0xe2 ∧ b = Char.ofNat 0xad then
      Char.ofNat 0x2b50 :: replaceStar t
    else a :: replaceStar (b :: t)
  | s => s

/-- The garbled phone glyph as written in the source:
U+00F0 U+0178 U+0022 U+017E → U+1F4DE. -/
def replacePhone : List Char → List Char
  | a :: b :: c :: d :: t =>
    if a = Char.ofNat 0xf0 ∧ b = Char.ofNat 0x178 ∧ c = Char.ofNat 0x22 ∧ d = Char.ofNat 0x17e then
      Char.ofNat 0x1f4de :: replacePhone t
    else a :: replacePhone (b :: c :: d :: t)
  | s => s

/-- The three symbol-normalization substitutions, in source order. -/
def fixGlyphs (s : List Char) : List Char :=
  replacePhone (replaceStar (replaceRupee s))

/-- `DataManager.extract_dealers_data`: find the designated assignment
statement, quote bare keys, normalize the three glyphs and parse; any
failure yields `[]` (the `except` branch reports the error and returns
`[]`, and a missing statement returns `[]` directly). -/
def extract_dealers_data (html : String) : List Json :=
  match findSpan stmtOpenLit ']' [';'] html.toList with
  | none => []
  | some (_, inner, _) =>
    match jsonLoads (fixGlyphs (quoteKeys ('[' :: inner ++ [']']))) with
    | some (.arr l) => l
    | _ => []

/-- `DataManager.update_dealers_in_html`: serialize the dealers and
substitute `const dealersData = <json>;` for every match of the statement
pattern.  If the template expansion raises (`none`), the `except` branch
returns the input unchanged. -/
def update_dealers_in_html (html : String) (dealers : List Record) : String :=
  let dealersJs := dumpsVal 0 (.arr (dealers.map recordToJson))
  match applyTemplate (stmtLit ++ dealersJs ++ [';']) with
  | none => html
  | some rep => String.mk (subSpanAll stmtOpenLit ']' [';'] rep html.toList)

/-! ## DataManager.extract_regions / update_regions_in_html -/

/-- Literal prefix of `<option value="(\w+)">\1</option>`. -/
def optLit : List Char := "<option value=\"".toList

/-- Try to match the option pattern at the start of `s`.  The group
`(\w+)` is greedy, but `"` is not a word character, so the only candidate
is the maximal word run; the back-reference `\1` then repeats it. -/
def matchOption (s : List Char) : Option (List Char × List Char) :=
  match chopLit optLit s with
  | none => none
  | some r =>
    if (r.takeWhile isWordChar).isEmpty then none
    else
      match chopLit ('"' :: '>' :: r.takeWhile isWordChar ++ "</option>".toList)
          (r.dropWhile isWordChar) with
      | none => none
      | some rest => some (r.takeWhile isWordChar, rest)

/-- `re.findall(r'<option value="(\w+)">\1</option>', s)`: all captured
groups of the non-overlapping matches, scanning left to right.  As with
`subSpanAllF`, the fuel argument only provides structural termination. -/
def findAllOptionsF : Nat → List Char → List (List Char)
  | 0, _ => []
  | _ + 1, [] => []
  | fuel + 1, c :: t =>
    match matchOption (c :: t) with
    | some (w, rest) => w :: findAllOptionsF fuel rest
    | none => findAllOptionsF fuel t

def findAllOptions (s : List Char) : List (List Char) := findAllOptionsF s.length s

/-- `DataManager.extract_regions`: the matches, keeping only non-empty
ones (the comprehension `[m for m in matches if m]`). -/
def extract_regions (html : String) : List String :=
  ((findAllOptions html.toList).map String.mk).filter (fun m => m ≠ "")

/-- Python `sorted` on strings compares code-point sequences
lexicographically. -/
def lexLe : List Char → List Char → Bool
  | [], _ => true
  | _ :: _, [] => false
  | a :: as, b :: bs => if a = b then lexLe as bs else decide (a < b)

def strLeRel (a b : String) : Prop := lexLe a.toList b.toList = true

instance : DecidableRel strLeRel := fun a b => by
  unfold strLeRel
  infer_instance

/-- `sorted(regions)`.  Python's sort is a stable sort by `<`; on strings
`≤` is a linear order, so every sorted permutation is the same list and
insertion sort computes it. -/
def pySorted (l : List String) : List String := l.insertionSort strLeRel

/-- Literal opening of the select pattern. -/
def selectLit : List Char := "<select class=\"area-select\" id=\"areaSelect\">".toList

/-- Tail of the closing literal `</select>` (after its first character). -/
def selectCloseTail : List Char := "/select>".toList

/-- The fixed leading placeholder option. -/
def placeholderOption : List Char := "<option value=\"\">-- Choose an area --</option>".toList

/-- `f'<option value="{region}">{region}</option>'`. -/
def optionLine (region : String) : List Char :=
  optLit ++ region.toList ++ '"' :: '>' :: region.toList ++ "</option>".toList

/-- The separator of `'\n                    '.join(...)`: a newline and
20 spaces. -/
def joinSep : List Char := '\n' :: List.replicate 20 ' '

/-- The `options` string: placeholder plus one option per category in
sorted order, joined. -/
def optionsJoined (regions : List String) : List Char :=
  (List.intercalate joinSep (placeholderOption :: (pySorted regions).map optionLine))

/-- The freshly built select block (the f-string of line 145: open tag,
newline + 20 spaces, options, newline + 16 spaces, close tag). -/
def newSelectBlock (regions : List String) : List Char :=
  selectLit ++ '\n' :: List.replicate 20 ' ' ++ optionsJoined regions ++
    '\n' :: List.replicate 16 ' ' ++ "</select>".toList

/-- `DataManager.update_regions_in_html`. -/
def update_regions_in_html (html : String) (regions : List String) : String :=
  match applyTemplate (newSelectBlock regions) with
  | none => html
  | some rep => String.mk (subSpanAll selectLit '<' selectCloseTail rep html.toList)

/-! ## The add / edit form handlers (main, lines 208–310) -/

/-- The paddy list built from the form rows: a row contributes an entry
only when both its name and its price are non-empty (Python truthiness of
`paddy_name and paddy_price`); the unit is the constant `"per quintal"`. -/
def buildPaddies (rows : List (String × String)) : List Paddy :=
  rows.filterMap fun r =>
    if r.1 ≠ "" ∧ r.2 ≠ "" then some ⟨r.1, r.2, "per quintal"⟩ else none

/-- The add-dealer submission (lines 234–248).  Returns the new list and
whether the validation error was reported: the dealer is appended only if
all required fields are truthy, otherwise `st.error` fires and the list is
untouched. -/
def submitAdd (dealers : List Record) (name contact rating : String)
    (regions : List String) (rows : List (String × String)) : List Record × Bool :=
  let paddies := buildPaddies rows
  if name ≠ "" ∧ contact ≠ "" ∧ rating ≠ "" ∧ regions ≠ [] ∧ paddies ≠ [] then
    (dealers ++ [⟨name, contact, rating, regions, paddies⟩], false)
  else
    (dealers, true)

/-- The edit-dealer submission (lines 295–306): the record at `idx` is
replaced unconditionally — there is no validation on this path. -/
def submitEdit (dealers : List Record) (idx : Nat) (name contact rating : String)
    (regions : List String) (rows : List (String × String)) : List Record :=
  dealers.set idx ⟨name, contact, rating, regions, buildPaddies rows⟩

/-- Interleaving of segments and spans: `alternate [s0, s1, …] [m0, m1, …]`
is `s0 ++ m0 ++ s1 ++ m1 ++ …` (used to state the frame property of the
substitution: `re.sub` keeps the segments and replaces the spans). -/
def alternate : List (List Char) → List (List Char) → List Char
  | [], _ => []
  | s :: _, [] => s
  | s :: ss, m :: ms => s ++ m ++ alternate ss ms

/-! ## Safety conditions for the record round trip (claim C1)

The decode is a regex-and-fixups pipeline, so the round trip only holds
for field texts that the pipeline leaves alone.  `safeChar` excludes the
characters that `json.dumps` escapes (`"`,`\`, control characters) and
the two lead characters of the garbled-glyph substitutions; `noCloseSemi`
excludes the two-character sequence `];` at which the non-greedy decode
pattern stops; the no-colon condition makes the key-quoting substitution
`re.sub(r'(\w+):', ...)` unable to fire inside the serialized field:
quoting needs a word run immediately followed by `:`, the field is always
delimited by `"` (a non-word character under any alphabet, so runs cannot
cross its ends), and without a `:` inside the field no run in it is
followed by a colon — a condition that is indifferent to whether `\w` is
read over ASCII (as embedded here) or over full Unicode (as Python reads
it). -/

def safeChar (c : Char) : Bool :=
  (32 ≤ c.toNat) && c ≠ '"' && c ≠ '\\' && c ≠ Char.ofNat 0xe2 && c ≠ Char.ofNat 0xf0

def noCloseSemi : List Char → Bool
  | [] => true
  | c :: t => !(c == ']' && t.head? == some ';') && noCloseSemi t

def SafeField (f : String) : Prop :=
  (∀ c ∈ f.toList, safeChar c) ∧ noCloseSemi f.toList = true ∧ ':' ∉ f.toList

/-- All string fields of a record, in serialization order. -/
def recordFields (r : Record) : List String :=
  [r.name, r.contact, r.rating] ++ r.regions ++
    (r.paddyTypes.map fun p => [p.name, p.price, p.unit]).flatten

def SafeRecord (r : Record) : Prop := ∀ f ∈ recordFields r, SafeField f

instance : DecidablePred SafeField := fun f => by
  unfold SafeField
  infer_instance

instance (r : Record) : Decidable (SafeRecord r) := by
  unfold SafeRecord
  infer_instance

/-- Validity of a record per the data model (spec section 3): required
fields non-empty, at least one complete price entry, constant unit. -/
def ValidRecord (r : Record) : Prop :=
  r.name ≠ "" ∧ r.contact ≠ "" ∧ r.rating ≠ "" ∧ r.paddyTypes ≠ [] ∧
    ∀ p ∈ r.paddyTypes, p.unit = "per quintal"

/-- The interior of the serialized top-level array: `dumpsVal 0 (.arr l)`
is `'[' :: arrInner l ++ [']']`. -/
def arrInner : List Json → List Char
  | [] => []
  | x :: xs => jsonNl 1 ++ dumpsItems 1 (x :: xs) ++ jsonNl 0

/-- Every character the record serializer can emit outside the string
fields themselves: punctuation, whitespace and the characters of the five
record keys and three paddy keys. -/
def dumpsFixedChars : List Char :=
  "[]{},: \"\nnamecontactratingregionspaddyTypesunitprice".toList

/-- The pieces a serialized record list is concatenated from: every
character is a fixed serializer character or a safe field character, no
`];` occurs, and the piece does not begin with `;` (so concatenating good
pieces never creates a `];`). -/
def GoodPiece (l : List Char) : Prop :=
  (∀ c ∈ l, c ∈ dumpsFixedChars ∨ safeChar c) ∧ noCloseSemi l = true ∧ l.head? ≠ some ';'

/-- The key-quoting substitution passes over `l` unchanged and without
looking past it: on any concatenation `l ++ rest` it emits `l` and
continues on `rest` from a fresh state. -/
def QK (l : List Char) : Prop :=
  ∀ rest, quoteKeys (l ++ rest) = l ++ quoteKeys rest

/-- A chunk of serializer output that the decode pipeline transports
verbatim: good characters, no embedded close sequence, and transparency
to the key-quoting substitution. -/
def GoodChunk (l : List Char) : Prop := GoodPiece l ∧ QK l

/- Fuel consumed by the `json.loads` parser on serializer output (with one
unit of slack per production); used to instantiate the fuel budget of
`jsonLoads`. -/

mutual

def pcost : Json → Nat
  | .arr (x :: xs) => pcostItems (x :: xs) + 1
  | .obj (kv :: kvs) => pcostMembers (kv :: kvs) + 1
  | _ => 0

def pcostItems : List Json → Nat
  | [] => 0
  | x :: xs => pcost x + 2 + pcostItems xs

def pcostMembers : List (String × Json) → Nat
  | [] => 0
  | kv :: kvs => pcost kv.2 + 2 + pcostMembers kvs

end

/-- The parser, given fuel `k` plus any slack, consumes exactly the
serialized form of `v` (after any leading whitespace) and returns `v`. -/
def ParsesAs (lvl : Nat) (v : Json) (k : Nat) : Prop :=
  ∀ fu ws rest, (∀ c ∈ ws, isJsonWs c = true) →
    parseValue (fu + k + 1) (ws ++ (dumpsVal lvl v ++ rest)) = some (v, rest)

/-- The serialized form of `v` starts with a character that is neither
whitespace nor a closing bracket (so the container branches of the parser
take the non-empty path). -/
def HeadOK (lvl : Nat) (v : Json) : Prop :=
  ∃ c w, dumpsVal lvl v = c :: w ∧ isJsonWs c = false ∧ c ≠ ']' ∧ c ≠ '}'

/-- A value whose serialized form parses back to itself. -/
def GoodVal (lvl : Nat) (v : Json) : Prop := ParsesAs lvl v (pcost v) ∧ HeadOK lvl v

/-! ## Fixtures used by concrete claims -/

/-- Field lookup in a decoded object (Python `record['key']`). -/
def jsonField (j : Json) (k : String) : Option Json :=
  match j with
  | .obj kvs => (kvs.find? (fun p => p.1 == k)).map (fun p => p.2)
  | _ => none

/-- The document text of the decode example (spec section 8 / claim C3):
a page containing the designated assignment statement. -/
def exampleDoc : String :=
  "<script>const dealersData = [\x7bname:\"A\",contact:\"1\",rating:\"5\",regions:[\"X\"],paddyTypes:[\x7bname:\"Rice\",price:\"100\",unit:\"per quintal\"\x7d]\x7d];</script>"

/-- The single record the example document decodes to. -/
def exampleRec : Json :=
  .obj [("name", .str "A"), ("contact", .str "1"), ("rating", .str "5"),
        ("regions", .arr [.str "X"]),
        ("paddyTypes", .arr [.obj [("name", .str "Rice"), ("price", .str "100"),
          ("unit", .str "per quintal")]])]

/-- A document containing the designated assignment statement. -/
def roundTripDoc : String := "<p>const dealersData = [];</p>"

/-- A record whose name contains the two characters `];` — the non-greedy
decode pattern stops at the first `];`, truncating the serialized array. -/
def badNameRec : Record := ⟨"a];b", "c", "5", ["X"], [⟨"N", "2", "per quintal"⟩]⟩

/-- A document with the same self-referential option fragment twice. -/
def dupOptionsDoc : String :=
  "<option value=\"A\">A</option><option value=\"A\">A</option>"

/-! # Theorems -/

/-! ### Decomposition and bookkeeping lemmas for the embedded scanners -/

theorem chopLit_eq {lit s r : List Char} (h : chopLit lit s = some r) : s = lit ++ r := by
  induction lit generalizing s with
  | nil => simpa [chopLit] using h
  | cons p ps ih =>
    cases s with
    | nil => simp [chopLit] at h
    | cons c cs =>
      by_cases hpc : p = c
      · simp [chopLit, hpc] at h
        simpa [hpc] using congrArg (c :: ·) (ih h)
      · simp [chopLit, hpc] at h

theorem chopLit_refl (lit r : List Char) : chopLit lit (lit ++ r) = some r := by
  induction lit with
  | nil => simp [chopLit]
  | cons p ps ih => simp [chopLit, ih]

theorem findLit_eq {c0 : Char} {ct s pre r : List Char}
    (h : findLit c0 ct s = some (pre, r)) : s = pre ++ (c0 :: ct) ++ r := by
  induction s generalizing pre with
  | nil => simp [findLit] at h
  | cons c t ih =>
    rw [findLit] at h
    cases hc : chopLit (c0 :: ct) (c :: t) with
    | some r0 =>
      rw [hc] at h
      obtain ⟨h1, h2⟩ := by simpa using h
      subst h1; subst h2
      simpa using chopLit_eq hc
    | none =>
      rw [hc] at h
      cases hf : findLit c0 ct t with
      | none => rw [hf] at h; simp at h
      | some q =>
        rw [hf] at h
        obtain ⟨h1, h2⟩ := by simpa using h
        obtain ⟨q1, q2⟩ := q
        subst h2
        cases h1
        simpa using @ih q1 (by simpa using hf)

theorem matchSpan_eq {openLit : List Char} {c0 : Char} {ct s mid r : List Char}
    (h : matchSpan openLit c0 ct s = some (mid, r)) :
    s = openLit ++ mid ++ (c0 :: ct) ++ r := by
  unfold matchSpan at h
  cases hc : chopLit openLit s with
  | none => rw [hc] at h; cases h
  | some r0 =>
    rw [hc] at h
    rw [chopLit_eq hc, findLit_eq h]
    simp

theorem findSpan_eq {openLit : List Char} {c0 : Char} {ct s pre mid r : List Char}
    (h : findSpan openLit c0 ct s = some (pre, mid, r)) :
    s = pre ++ openLit ++ mid ++ (c0 :: ct) ++ r := by
  induction s generalizing pre with
  | nil => simp [findSpan] at h
  | cons c t ih =>
    rw [findSpan] at h
    cases hm : matchSpan openLit c0 ct (c :: t) with
    | some q =>
      obtain ⟨mid0, r0⟩ := q
      rw [hm] at h
      obtain ⟨h1, h2, h3⟩ := by simpa using h
      subst h1; subst h2; subst h3
      simpa using matchSpan_eq hm
    | none =>
      rw [hm] at h
      cases hf : findSpan openLit c0 ct t with
      | none => rw [hf] at h; cases h
      | some q =>
        obtain ⟨q1, q2, q3⟩ := q
        rw [hf] at h
        obtain ⟨h1, h2, h3⟩ := by simpa using h
        subst h2; subst h3
        cases h1
        simpa using @ih q1 hf

theorem findSpan_rest_length {openLit : List Char} {c0 : Char} {ct s pre mid r : List Char}
    (h : findSpan openLit c0 ct s = some (pre, mid, r)) : r.length < s.length := by
  have := congrArg List.length (findSpan_eq h)
  simp at this
  omega

theorem subSpanAllF_fuel_congr (openLit : List Char) (c0 : Char) (ct rep : List Char) :
    ∀ fuel s fuel', s.length ≤ fuel → s.length ≤ fuel' →
      subSpanAllF openLit c0 ct rep fuel s = subSpanAllF openLit c0 ct rep fuel' s := by
  intro fuel
  induction fuel with
  | zero =>
    intro s fuel' hs _
    have hnil : s = [] := List.eq_nil_of_length_eq_zero (Nat.le_zero.mp hs)
    subst hnil
    cases fuel' with
    | zero => rfl
    | succ m => rfl
  | succ n ih =>
    intro s fuel' hs hs'
    cases fuel' with
    | zero =>
      have hnil : s = [] := List.eq_nil_of_length_eq_zero (Nat.le_zero.mp hs')
      subst hnil
      rfl
    | succ m =>
      show (match findSpan openLit c0 ct s with
        | none => s
        | some (pre, _, r) => pre ++ rep ++ subSpanAllF openLit c0 ct rep n r) =
        (match findSpan openLit c0 ct s with
        | none => s
        | some (pre, _, r) => pre ++ rep ++ subSpanAllF openLit c0 ct rep m r)
      cases hf : findSpan openLit c0 ct s with
      | none => rfl
      | some q =>
        obtain ⟨pre, mid, r⟩ := q
        have hr := findSpan_rest_length hf
        have : subSpanAllF openLit c0 ct rep n r = subSpanAllF openLit c0 ct rep m r :=
          ih r m (by omega) (by omega)
        simp only [this]

/-- The defining recurrence of `subSpanAll`, free of the fuel artifact. -/
theorem subSpanAll_eq_match (openLit : List Char) (c0 : Char) (ct rep s : List Char) :
    subSpanAll openLit c0 ct rep s =
      match findSpan openLit c0 ct s with
      | none => s
      | some (pre, _, r) => pre ++ rep ++ subSpanAll openLit c0 ct rep r := by
  unfold subSpanAll
  cases hs : s.length with
  | zero =>
    have hnil : s = [] := List.eq_nil_of_length_eq_zero hs
    subst hnil
    rfl
  | succ n =>
    show (match findSpan openLit c0 ct s with
      | none => s
      | some (pre, _, r) => pre ++ rep ++ subSpanAllF openLit c0 ct rep n r) = _
    cases hf : findSpan openLit c0 ct s with
    | none => rfl
    | some q =>
      obtain ⟨pre, mid, r⟩ := q
      have hr := findSpan_rest_length hf
      have : subSpanAllF openLit c0 ct rep n r = subSpanAllF openLit c0 ct rep r.length r :=
        subSpanAllF_fuel_congr openLit c0 ct rep n r r.length (by omega) (by omega)
      simp only [this]

theorem matchOption_eq {s w rest : List Char} (h : matchOption s = some (w, rest)) :
    s = optLit ++ w ++ '"' :: '>' :: w ++ "</option>".toList ++ rest ∧
      w ≠ [] ∧ ∀ c ∈ w, isWordChar c := by
  unfold matchOption at h
  split at h
  · cases h
  next r h1 =>
    split at h
    · cases h
    next hw =>
      split at h
      · cases h
      next rest0 h3 =>
        obtain ⟨hww, hr⟩ := by simpa using h
        subst hr
        have hwne : w ≠ [] := by
          rw [← hww]
          simpa [List.isEmpty_iff] using hw
        refine ⟨?_, hwne, ?_⟩
        · have hsplit : r = w ++ r.dropWhile isWordChar := by
            conv_lhs => rw [← @List.takeWhile_append_dropWhile _ isWordChar r]
            rw [hww]
          rw [chopLit_eq h1, hsplit, chopLit_eq h3, ← hww]
          simp
        · intro c hc
          exact List.mem_takeWhile_imp (hww ▸ hc)

theorem matchOption_rest_length {s w rest : List Char}
    (h : matchOption s = some (w, rest)) : rest.length < s.length := by
  have := congrArg List.length (matchOption_eq h).1
  simp at this
  omega

theorem findAllOptionsF_fuel_congr :
    ∀ fuel s fuel', s.length ≤ fuel → s.length ≤ fuel' →
      findAllOptionsF fuel s = findAllOptionsF fuel' s := by
  intro fuel
  induction fuel with
  | zero =>
    intro s fuel' hs _
    have hnil : s = [] := List.eq_nil_of_length_eq_zero (Nat.le_zero.mp hs)
    subst hnil
    cases fuel' with
    | zero => rfl
    | succ m => rfl
  | succ n ih =>
    intro s fuel' hs hs'
    cases fuel' with
    | zero =>
      have hnil : s = [] := List.eq_nil_of_length_eq_zero (Nat.le_zero.mp hs')
      subst hnil
      rfl
    | succ m =>
      cases s with
      | nil => rfl
      | cons c t =>
        show (match matchOption (c :: t) with
          | some (w, rest) => w :: findAllOptionsF n rest
          | none => findAllOptionsF n t) =
          (match matchOption (c :: t) with
          | some (w, rest) => w :: findAllOptionsF m rest
          | none => findAllOptionsF m t)
        simp at hs hs'
        cases hm : matchOption (c :: t) with
        | none => simp only [ih t m (by omega) (by omega)]
        | some q =>
          obtain ⟨w, rest⟩ := q
          have hr := matchOption_rest_length hm
          simp at hr
          simp only [ih rest m (by omega) (by omega)]

/-- The defining recurrence of `findAllOptions` on a non-empty text, free
of the fuel artifact. -/
theorem findAllOptions_eq_match (c : Char) (t : List Char) :
    findAllOptions (c :: t) =
      match matchOption (c :: t) with
      | some (w, rest) => w :: findAllOptions rest
      | none => findAllOptions t := by
  unfold findAllOptions
  show (match matchOption (c :: t) with
    | some (w, rest) => w :: findAllOptionsF t.length rest
    | none => findAllOptionsF t.length t) = _
  cases hm : matchOption (c :: t) with
  | none => rfl
  | some q =>
    obtain ⟨w, rest⟩ := q
    have hr := matchOption_rest_length hm
    simp at hr
    simp only [findAllOptionsF_fuel_congr t.length rest rest.length (by omega) (by omega)]


theorem stringMk_toList (s : String) : String.mk s.toList = s := rfl

theorem subSpanAll_of_none {openLit : List Char} {c0 : Char} {ct rep s : List Char}
    (h : findSpan openLit c0 ct s = none) : subSpanAll openLit c0 ct rep s = s := by
  rw [subSpanAll_eq_match, h]

/-- C4: when the document text contains no match of the designated
assignment-statement pattern, `update_dealers_in_html` returns the input
text unchanged, for every record list (this holds both on the plain no-match
path and on the exception path where the replacement template is invalid). -/
theorem C4_missing_stmt_unchanged (html : String) (dealers : List Record)
    (h : findSpan stmtOpenLit ']' [';'] html.toList = none) :
    update_dealers_in_html html dealers = html := by
  have key : ∀ tpl : List Char,
      (match applyTemplate tpl with
        | none => html
        | some rep => String.mk (subSpanAll stmtOpenLit ']' [';'] rep html.toList)) = html := by
    intro tpl
    cases applyTemplate tpl with
    | none => rfl
    | some rep =>
      exact (congrArg String.mk (subSpanAll_of_none h)).trans (stringMk_toList html)
  exact key _

/-- Witness for C4 at a concrete input. -/
theorem C4_missing_stmt_unchanged_witness :
    findSpan stmtOpenLit ']' [';'] ("hello".toList) = none ∧
      update_dealers_in_html "hello" [⟨"A", "1", "5", ["X"], [⟨"R", "2", "per quintal"⟩]⟩]
        = "hello" :=
  ⟨by decide, C4_missing_stmt_unchanged "hello" _ (by decide)⟩

/-- C5: if the designated statement is not found, or the extracted and
cleaned-up array text fails to parse, `extract_dealers_data` returns the
empty list (the Python `except` branch reports the error instead of
raising). -/
theorem C5_extract_errors_empty (html : String)
    (h : findSpan stmtOpenLit ']' [';'] html.toList = none ∨
      ∃ pre inner rest, findSpan stmtOpenLit ']' [';'] html.toList = some (pre, inner, rest) ∧
        jsonLoads (fixGlyphs (quoteKeys ('[' :: inner ++ [']']))) = none) :
    extract_dealers_data html = [] := by
  unfold extract_dealers_data
  rcases h with h | ⟨pre, inner, rest, hfind, hparse⟩
  · rw [h]
  · rw [hfind]
    show (match jsonLoads (fixGlyphs (quoteKeys ('[' :: inner ++ [']']))) with
      | some (.arr l) => l
      | _ => ([] : List Json)) = []
    rw [hparse]

/-- Witness for C5 at a concrete input (no statement present). -/
theorem C5_extract_errors_empty_witness :
    (findSpan stmtOpenLit ']' [';'] ("no data here".toList) = none ∨
      ∃ pre inner rest, findSpan stmtOpenLit ']' [';'] ("no data here".toList)
          = some (pre, inner, rest) ∧
        jsonLoads (fixGlyphs (quoteKeys ('[' :: inner ++ [']']))) = none) ∧
      extract_dealers_data "no data here" = [] :=
  ⟨Or.inl (by decide), C5_extract_errors_empty "no data here" (Or.inl (by decide))⟩

/-- C8 counterexample: an edit submission with an empty required field
(the dealer name) mutates the in-memory list — the edit path performs no
validation, contradicting the claim that every invalid add/edit submission
leaves the list untouched. -/
theorem C8_counterexample :
    submitEdit [⟨"Z", "z", "1", ["X"], [⟨"a", "b", "per quintal"⟩]⟩] 0
        "" "c" "r" ["X"] [("p", "q")]
      ≠ [⟨"Z", "z", "1", ["X"], [⟨"a", "b", "per quintal"⟩]⟩] := by
  decide

/-- C8 as amended: on the add path a submission with any required field
empty (name, contact, rating, regions, or no complete price entry) reports
the validation error and leaves the dealer list exactly as it was; the
edit path replaces the record unconditionally and is not covered. -/
theorem C8_amended_add_validation (dealers : List Record) (name contact rating : String)
    (regions : List String) (rows : List (String × String))
    (h : name = "" ∨ contact = "" ∨ rating = "" ∨ regions = [] ∨ buildPaddies rows = []) :
    submitAdd dealers name contact rating regions rows = (dealers, true) := by
  unfold submitAdd
  rcases h with h | h | h | h | h <;> simp [h]

/-- Witness for the amended C8 at a concrete input. -/
theorem C8_amended_add_validation_witness :
    ("" = "" ∨ "c" = "" ∨ "r" = "" ∨ (["X"] : List String) = [] ∨
        buildPaddies [("p", "q")] = []) ∧
      submitAdd [] "" "c" "r" ["X"] [("p", "q")] = ([], true) :=
  ⟨Or.inl rfl, C8_amended_add_validation [] "" "c" "r" ["X"] [("p", "q")] (Or.inl rfl)⟩

set_option maxRecDepth 8000 in
set_option maxHeartbeats 2000000 in
/-- C3: on the example document containing
`const dealersData = [{name:"A",contact:"1",rating:"5",regions:["X"],paddyTypes:[{name:"Rice",price:"100",unit:"per quintal"}]}];`,
`extract_dealers_data` yields exactly one record, whose `name` field is
`"A"` and whose `regions` field is `["X"]`. -/
theorem C3_example_decode :
    extract_dealers_data exampleDoc = [exampleRec] ∧
      jsonField exampleRec "name" = some (.str "A") ∧
      jsonField exampleRec "regions" = some (.arr [.str "X"]) :=
  ⟨rfl, rfl, rfl⟩

set_option maxRecDepth 8000 in
set_option maxHeartbeats 4000000 in
/-- C1 counterexample: for the valid record list `[badNameRec]` (all
fields non-empty, one complete price entry, no garbled glyph anywhere, so
the symbol normalization is idempotent on it) and a document that does
contain the designated statement, decoding the encoded document yields
`[]`, not the encoded list: the record's name contains `];`, which the
non-greedy decode pattern treats as the end of the array literal. -/
theorem C1_counterexample :
    (findSpan stmtOpenLit ']' [';'] roundTripDoc.toList).isSome = true ∧
      extract_dealers_data (update_dealers_in_html roundTripDoc [badNameRec])
        ≠ [badNameRec].map recordToJson := by
  refine ⟨rfl, ?_⟩
  intro h
  have h0 : extract_dealers_data (update_dealers_in_html roundTripDoc [badNameRec]) = [] := rfl
  rw [h0] at h
  simp at h

set_option maxRecDepth 8000 in
set_option maxHeartbeats 2000000 in
/-- C7 counterexample: on a document holding the option fragment
`<option value="A">A</option>` twice, `extract_regions` returns the label
`A` twice — the result is not a list of distinct labels. -/
theorem C7_counterexample :
    extract_regions dupOptionsDoc = ["A", "A"] ∧
      ¬ (extract_regions dupOptionsDoc).Nodup := by
  have h : extract_regions dupOptionsDoc = ["A", "A"] := rfl
  exact ⟨h, by rw [h]; decide⟩

/-! ### Lemmas about the option scanner -/

theorem matchOption_nil : matchOption [] = none := rfl

theorem takeWhile_append_pos {p : α → Bool} {a : List α} (b : List α) (h : ∀ x ∈ a, p x) :
    (a ++ b).takeWhile p = a ++ b.takeWhile p := by
  induction a with
  | nil => rfl
  | cons x t ih =>
    rw [List.cons_append, List.takeWhile_cons_of_pos (h x (by simp)), List.cons_append,
      ih fun y hy => h y (by simp [hy])]

theorem dropWhile_append_pos {p : α → Bool} {a : List α} (b : List α) (h : ∀ x ∈ a, p x) :
    (a ++ b).dropWhile p = b.dropWhile p := by
  induction a with
  | nil => rfl
  | cons x t ih =>
    rw [List.cons_append, List.dropWhile_cons_of_pos (h x (by simp))]
    exact ih fun y hy => h y (by simp [hy])

/-- A full option fragment at the head of the text matches, capturing its
label. -/
theorem matchOption_at (w b : List Char) (hne : w ≠ []) (hw : ∀ c ∈ w, isWordChar c) :
    matchOption (optLit ++ (w ++ '"' :: '>' :: (w ++ ("</option>".toList ++ b))))
      = some (w, b) := by
  have hred : ∀ X : List Char, matchOption (optLit ++ X) =
      (if (X.takeWhile isWordChar).isEmpty then none
       else
        match chopLit ('"' :: '>' :: X.takeWhile isWordChar ++ "</option>".toList)
            (X.dropWhile isWordChar) with
        | none => none
        | some rest => some (X.takeWhile isWordChar, rest)) := fun X => rfl
  have ht : List.takeWhile isWordChar (w ++ '"' :: '>' :: (w ++ ("</option>".toList ++ b)))
      = w := by
    rw [takeWhile_append_pos _ hw, List.takeWhile_cons_of_neg (by decide), List.append_nil]
  have hd : List.dropWhile isWordChar (w ++ '"' :: '>' :: (w ++ ("</option>".toList ++ b)))
      = '"' :: '>' :: (w ++ ("</option>".toList ++ b)) := by
    rw [dropWhile_append_pos _ hw, List.dropWhile_cons_of_neg (by decide)]
  rw [hred, ht, hd]
  rw [if_neg (by simpa [List.isEmpty_iff] using hne)]
  have harg : '"' :: '>' :: (w ++ ("</option>".toList ++ b)) =
      ('"' :: '>' :: w ++ "</option>".toList) ++ b := by
    simp
  rw [harg, chopLit_refl]

/-- If a match fires, the scan records its label and resumes after it. -/
theorem findAllOptions_eq_some {s w rest : List Char} (hm : matchOption s = some (w, rest)) :
    findAllOptions s = w :: findAllOptions rest := by
  cases s with
  | nil => rw [matchOption_nil] at hm; cases hm
  | cons c t => rw [findAllOptions_eq_match, hm]

/-- A stretch of text in which no match starts (at any suffix position,
also taking the following text into account) contributes nothing. -/
theorem findAllOptions_append_clean (a b : List Char)
    (h : ∀ i, i < a.length → matchOption (a.drop i ++ b) = none) :
    findAllOptions (a ++ b) = findAllOptions b := by
  induction a with
  | nil => rfl
  | cons c t ih =>
    have hcons : (c :: t) ++ b = c :: (t ++ b) := rfl
    rw [hcons, findAllOptions_eq_match]
    have h0 := h 0 (by simp)
    simp only [List.drop_zero] at h0
    rw [hcons] at h0
    rw [h0]
    exact ih fun i hi => by simpa using h (i + 1) (by simpa using hi)

/-- Every label collected by the option scanner is a non-empty run of
word characters. -/
theorem findAllOptionsF_mem :
    ∀ fuel s w, w ∈ findAllOptionsF fuel s → w ≠ [] ∧ ∀ c ∈ w, isWordChar c := by
  intro fuel
  induction fuel with
  | zero => intro s w hw; simp [findAllOptionsF] at hw
  | succ n ih =>
    intro s w hw
    cases s with
    | nil => simp [findAllOptionsF] at hw
    | cons c t =>
      rw [show findAllOptionsF (n + 1) (c :: t) =
          (match matchOption (c :: t) with
          | some (w, rest) => w :: findAllOptionsF n rest
          | none => findAllOptionsF n t) from rfl] at hw
      cases hm : matchOption (c :: t) with
      | none =>
        rw [hm] at hw
        exact ih t w hw
      | some q =>
        obtain ⟨w0, rest⟩ := q
        rw [hm] at hw
        rcases List.mem_cons.mp hw with hweq | hwmem
        · subst hweq
          obtain ⟨-, hne, hword⟩ := matchOption_eq hm
          exact ⟨hne, hword⟩
        · exact ih rest w hwmem

/-- C9: every label returned by `extract_regions` is a non-empty string
consisting solely of word characters; in particular a label containing a
space, hyphen or any other non-word character never occurs in the result. -/
theorem C9_labels_are_word_runs (html : String) (m : String)
    (hm : m ∈ extract_regions html) :
    m ≠ "" ∧ ∀ c ∈ m.toList, isWordChar c := by
  unfold extract_regions at hm
  have hmem := List.mem_filter.mp hm
  obtain ⟨hmap, hne⟩ := hmem
  refine ⟨by simpa using hne, ?_⟩
  obtain ⟨w, hwmem, hweq⟩ := List.mem_map.mp hmap
  obtain ⟨-, hword⟩ := findAllOptionsF_mem _ _ _ hwmem
  subst hweq
  simpa using hword

/-- Witness for C9 at a concrete input. -/
theorem C9_labels_are_word_runs_witness :
    "A" ∈ extract_regions (String.mk (optionLine "A")) ∧
      ("A" ≠ "" ∧ ∀ c ∈ "A".toList, isWordChar c) :=
  ⟨by decide, C9_labels_are_word_runs (String.mk (optionLine "A")) "A" (by decide)⟩

/-- C7 as amended: `extract_regions` returns the label of every
occurrence of the self-referential option fragment, in document order,
duplicates included (an empty label cannot match, since `\w+` requires at
least one character).  Stated on a document consisting of the fragments
of an arbitrary label list, which it reproduces exactly. -/
theorem C7_amended_all_occurrences (ls : List String)
    (h : ∀ w ∈ ls, w ≠ "" ∧ ∀ c ∈ w.toList, isWordChar c) :
    extract_regions (String.mk ((ls.map optionLine).flatten)) = ls := by
  have key : findAllOptions ((ls.map optionLine).flatten) = ls.map String.toList := by
    induction ls with
    | nil => rfl
    | cons w ws ih =>
      obtain ⟨hne, hw⟩ := h w (by simp)
      have hne' : w.toList ≠ [] := by
        intro hx
        exact hne (by rw [← stringMk_toList w, hx])
      simp only [List.map_cons, List.flatten_cons]
      have harg : optionLine w ++ (ws.map optionLine).flatten =
          optLit ++ (w.toList ++ '"' :: '>' :: (w.toList ++ ("</option>".toList ++
            (ws.map optionLine).flatten))) := by
        simp [optionLine]
      rw [harg, findAllOptions_eq_some (matchOption_at w.toList _ hne' hw)]
      rw [ih fun x hx => h x (by simp [hx])]
  unfold extract_regions
  rw [show (String.mk ((ls.map optionLine).flatten)).toList = (ls.map optionLine).flatten
    from rfl]
  rw [key, List.map_map]
  have hid : ls.map (String.mk ∘ String.toList) = ls :=
    List.map_congr_left (fun w _ => stringMk_toList w) |>.trans (List.map_id ls)
  rw [hid]
  exact List.filter_eq_self.mpr fun w hwmem => by
    simpa using (h w hwmem).1

/-- Witness for the amended C7 at a concrete input with a duplicate. -/
theorem C7_amended_all_occurrences_witness :
    (∀ w ∈ ["A", "A"], w ≠ "" ∧ ∀ c ∈ w.toList, isWordChar c) ∧
      extract_regions (String.mk (((["A", "A"] : List String).map optionLine).flatten))
        = ["A", "A"] :=
  ⟨by decide, C7_amended_all_occurrences ["A", "A"] (by decide)⟩

/-! ### The code-point order used by sorted -/

theorem lexLe_total : ∀ a b : List Char, lexLe a b = true ∨ lexLe b a = true := by
  intro a
  induction a with
  | nil => intro b; exact Or.inl rfl
  | cons x xs ih =>
    intro b
    cases b with
    | nil => exact Or.inr rfl
    | cons y ys =>
      by_cases hxy : x = y
      · subst hxy
        rcases ih ys with h | h
        · exact Or.inl (by simp [lexLe, h])
        · exact Or.inr (by simp [lexLe, h])
      · rcases lt_or_gt_of_ne hxy with hlt | hgt
        · exact Or.inl (by simp [lexLe, hxy, hlt])
        · exact Or.inr (by simp [lexLe, Ne.symm hxy, hgt])

theorem lexLe_trans :
    ∀ a b c : List Char, lexLe a b = true → lexLe b c = true → lexLe a c = true := by
  intro a
  induction a with
  | nil => intro b c _ _; rfl
  | cons x xs ih =>
    intro b c hab hbc
    cases b with
    | nil => simp [lexLe] at hab
    | cons y ys =>
      cases c with
      | nil => simp [lexLe] at hbc
      | cons z zs =>
        by_cases hxy : x = y <;> by_cases hyz : y = z
        · subst hxy; subst hyz
          simp only [lexLe, if_pos rfl] at hab hbc ⊢
          exact ih ys zs hab hbc
        · subst hxy
          simp only [lexLe, if_pos rfl, if_neg hyz] at hbc ⊢
          exact hbc
        · subst hyz
          simp only [lexLe, if_pos rfl, if_neg hxy] at hab ⊢
          exact hab
        · simp only [lexLe, if_neg hxy] at hab
          simp only [lexLe, if_neg hyz] at hbc
          have hxz : x < z := lt_trans (of_decide_eq_true hab) (of_decide_eq_true hbc)
          simp [lexLe, ne_of_lt hxz, hxz]

/-- C6: the selection block is built from scratch as the fixed leading
placeholder option followed by one option per category, the categories in
code-point-sorted order (a sorted permutation of the input list); in
particular for the input `["West", "East"]` the built options are the
placeholder, then `East`, then `West`, in that literal order. -/
theorem C6_encode_categories_sorted :
    (∀ regions : List String, ∃ sortedRegions : List String,
        sortedRegions.Perm regions ∧ List.Sorted strLeRel sortedRegions ∧
        optionsJoined regions =
          List.intercalate joinSep (placeholderOption :: sortedRegions.map optionLine)) ∧
      optionsJoined ["West", "East"] =
        placeholderOption ++ (joinSep ++ (optionLine "East" ++ (joinSep ++ optionLine "West")))
        := by
  constructor
  · intro regions
    haveI hTot : IsTotal String strLeRel := ⟨fun a b => lexLe_total a.toList b.toList⟩
    haveI hTr : IsTrans String strLeRel :=
      ⟨fun a b c hab hbc => lexLe_trans a.toList b.toList c.toList hab hbc⟩
    exact ⟨pySorted regions, List.perm_insertionSort strLeRel regions,
      List.sorted_insertionSort strLeRel regions, rfl⟩
  · decide

/-! ### Generic lemmas about the scanners, used for the round trips -/

/-- A failed literal comparison with enough input stays failed under
extension of the input. -/
theorem chopLit_none_extend :
    ∀ (lit s : List Char), chopLit lit s = none → lit.length ≤ s.length →
      ∀ b, chopLit lit (s ++ b) = none := by
  intro lit
  induction lit with
  | nil => intro s h _ b; simp [chopLit] at h
  | cons p ps ih =>
    intro s h hlen b
    cases s with
    | nil => simp at hlen
    | cons c t =>
      by_cases hpc : p = c
      · simp only [chopLit, if_pos hpc] at h
        simp only [List.cons_append, chopLit, if_pos hpc]
        exact ih t h (by simpa using hlen) b
      · simp only [List.cons_append, chopLit, if_neg hpc]

/-- If the close literal is found with nothing after it, extending the
input moves the leftover past the same match. -/
theorem findLit_extend {c0 : Char} {ct : List Char} :
    ∀ s p, findLit c0 ct s = some (p, []) →
      ∀ b, findLit c0 ct (s ++ b) = some (p, b) := by
  intro s
  induction s with
  | nil => intro p h b; simp [findLit] at h
  | cons c t ih =>
    intro p h b
    have hrec : findLit c0 ct (c :: t) = (match chopLit (c0 :: ct) (c :: t) with
      | some r => some (([] : List Char), r)
      | none => (findLit c0 ct t).map fun q => (c :: q.1, q.2)) := rfl
    rw [hrec] at h
    cases hc : chopLit (c0 :: ct) (c :: t) with
    | some r =>
      rw [hc] at h
      obtain ⟨hp, hr⟩ := by simpa using h
      subst hp; subst hr
      have hct : c :: t = (c0 :: ct) ++ [] := chopLit_eq hc
      rw [show (c :: t) ++ b = (c0 :: ct) ++ b by rw [hct]; simp]
      have hrec2 : findLit c0 ct ((c0 :: ct) ++ b) =
          (match chopLit (c0 :: ct) ((c0 :: ct) ++ b) with
          | some r => some (([] : List Char), r)
          | none => (findLit c0 ct (ct ++ b)).map fun q => (c0 :: q.1, q.2)) := rfl
      rw [hrec2, chopLit_refl]
    | none =>
      rw [hc] at h
      cases hf : findLit c0 ct t with
      | none => rw [hf] at h; cases h
      | some q =>
        obtain ⟨q1, q2⟩ := q
        rw [hf] at h
        obtain ⟨hp, hq⟩ := by simpa using h
        subst hq
        have ht : t = q1 ++ (c0 :: ct) := by simpa using findLit_eq hf
        have hlen : (c0 :: ct).length ≤ (c :: t).length := by
          simp [ht]
          omega
        have hcnone : chopLit (c0 :: ct) ((c :: t) ++ b) = none :=
          chopLit_none_extend _ _ hc hlen b
        rw [List.cons_append, findLit]
        rw [← List.cons_append, hcnone, ih q1 (by simpa using hf) b]
        simp [← hp]

/-- A position whose head character differs from the opening literal's
head cannot start a match. -/
theorem matchSpan_head_ne {o : Char} {os : List Char} {c0 : Char} {ct : List Char}
    {c : Char} (t : List Char) (h : c ≠ o) :
    matchSpan (o :: os) c0 ct (c :: t) = none := by
  unfold matchSpan
  have hch : chopLit (o :: os) (c :: t) = (if o = c then chopLit os t else none) := rfl
  rw [hch, if_neg fun he => h he.symm]

/-- Scanning past a stretch in which no match starts. -/
theorem findSpan_skip {openLit : List Char} {c0 : Char} {ct : List Char} :
    ∀ a b, (∀ i, i < a.length → matchSpan openLit c0 ct (a.drop i ++ b) = none) →
      findSpan openLit c0 ct (a ++ b) =
        (findSpan openLit c0 ct b).map fun q => (a ++ q.1, q.2.1, q.2.2) := by
  intro a
  induction a with
  | nil =>
    intro b _
    cases hb : findSpan openLit c0 ct b with
    | none => simp [hb]
    | some q => obtain ⟨q1, q2, q3⟩ := q; simp [hb]
  | cons c t ih =>
    intro b h
    have h0 := h 0 (by simp)
    simp only [List.drop_zero] at h0
    rw [List.cons_append, findSpan]
    rw [show matchSpan openLit c0 ct (c :: (t ++ b)) = none from h0]
    rw [ih b fun i hi => by simpa using h (i + 1) (by simpa using hi)]
    cases hb : findSpan openLit c0 ct b with
    | none => rfl
    | some q => obtain ⟨q1, q2, q3⟩ := q; simp

/-- A text without the opening literal's head character contains no match
at all. -/
theorem findSpan_none_of_all_ne {o : Char} {os : List Char} {c0 : Char} {ct : List Char} :
    ∀ s, (∀ c ∈ s, c ≠ o) → findSpan (o :: os) c0 ct s = none := by
  intro s
  induction s with
  | nil => intro _; rfl
  | cons c t ih =>
    intro h
    have h1 : matchSpan (o :: os) c0 ct (c :: t) = none := matchSpan_head_ne t (h c (by simp))
    have h2 : findSpan (o :: os) c0 ct t = none := ih fun x hx => h x (by simp [hx])
    show (match matchSpan (o :: os) c0 ct (c :: t) with
      | some (mid, r) => some ([], mid, r)
      | none => (findSpan (o :: os) c0 ct t).map fun q => (c :: q.1, q.2.1, q.2.2)) = none
    rw [h1, h2]
    rfl

/-! ### Support for the category round trip -/

theorem intercalate_cons_eq (sep : List Char) :
    ∀ (xs : List (List Char)) (x : List Char),
      List.intercalate sep (x :: xs) = x ++ (xs.map fun o => sep ++ o).flatten := by
  intro xs
  induction xs with
  | nil => intro x; simp [List.intercalate]
  | cons y ys ih =>
    intro x
    have h1 : List.intercalate sep (x :: y :: ys) =
        x ++ sep ++ List.intercalate sep (y :: ys) := by
      simp [List.intercalate]
    rw [h1, ih y]
    simp

/-- A replacement text without backslashes expands to itself. -/
theorem applyTemplate_id : ∀ l : List Char, (∀ c ∈ l, c ≠ '\\') → applyTemplate l = some l := by
  intro l
  induction l with
  | nil => intro _; rfl
  | cons c t ih =>
    intro h
    have hc : c ≠ '\\' := h c (by simp)
    have hstep : applyTemplate (c :: t) =
        (if c = '\\' then applyEsc t else (applyTemplate t).map (c :: ·)) := rfl
    rw [hstep, if_neg hc, ih fun x hx => h x (by simp [hx])]
    rfl

theorem word_ne_backslash {c : Char} (h : isWordChar c = true) : c ≠ '\\' := by
  intro he
  rw [he] at h
  exact absurd h (by decide)

theorem word_ne_lt {c : Char} (h : isWordChar c = true) : c ≠ '<' := by
  intro he
  rw [he] at h
  exact absurd h (by decide)

/-- No character of the freshly built selection block is a backslash when
the category labels consist of word characters (so the template expansion
of `re.sub` is the identity on it). -/
theorem newSelectBlock_no_backslash (S : List String)
    (h : ∀ r ∈ S, ∀ c ∈ r.toList, isWordChar c) :
    ∀ c ∈ newSelectBlock S, c ≠ '\\' := by
  have hws : ∀ n : Nat, ∀ x ∈ ('\n' :: List.replicate n ' '), x ≠ '\\' := by
    intro n x hx
    rcases List.mem_cons.mp hx with h1 | h1
    · subst h1; decide
    · rw [List.eq_of_mem_replicate h1]; decide
  intro c hc
  unfold newSelectBlock optionsJoined at hc
  rw [intercalate_cons_eq] at hc
  rcases List.mem_append.mp hc with hc | hc
  case inr => exact (by decide : ∀ x ∈ "</select>".toList, x ≠ '\\') c hc
  rcases List.mem_append.mp hc with hc | hc
  case inr => exact hws 16 c hc
  rcases List.mem_append.mp hc with hc | hc
  case inr =>
    rcases List.mem_append.mp hc with hc | hc
    · exact (by decide : ∀ x ∈ placeholderOption, x ≠ '\\') c hc
    · obtain ⟨l, hl, hcl2⟩ := List.mem_flatten.mp hc
      obtain ⟨o, ho, hfo⟩ := List.mem_map.mp hl
      obtain ⟨r, hr, hor⟩ := List.mem_map.mp ho
      subst hfo
      subst hor
      have hrS : ∀ x ∈ r.toList, isWordChar x :=
        h r (((List.perm_insertionSort strLeRel S).mem_iff).mp hr)
      rcases List.mem_append.mp hcl2 with hc2 | hc2
      · exact hws 20 c hc2
      · unfold optionLine at hc2
        rcases List.mem_append.mp hc2 with hc3 | hc3
        · rcases List.mem_append.mp hc3 with hc4 | hc4
          · rcases List.mem_append.mp hc4 with hc5 | hc5
            · exact (by decide : ∀ x ∈ optLit, x ≠ '\\') c hc5
            · exact word_ne_backslash (hrS c hc5)
          · rcases List.mem_cons.mp hc4 with hc5 | hc5
            · subst hc5; decide
            · rcases List.mem_cons.mp hc5 with hc6 | hc6
              · subst hc6; decide
              · exact word_ne_backslash (hrS c hc6)
        · exact (by decide : ∀ x ∈ "</option>".toList, x ≠ '\\') c hc3
  rcases List.mem_append.mp hc with hc | hc
  · exact (by decide : ∀ x ∈ selectLit, x ≠ '\\') c hc
  · exact hws 20 c hc

theorem matchOption_head_ne {c : Char} (t : List Char) (h : c ≠ '<') :
    matchOption (c :: t) = none := by
  unfold matchOption
  have he : chopLit optLit (c :: t) =
      (if '<' = c then chopLit ("option value=\"".toList) t else none) := rfl
  rw [he, if_neg fun x => h x.symm]

theorem findAllOptions_of_no_lt : ∀ s, (∀ c ∈ s, c ≠ '<') → findAllOptions s = [] := by
  intro s
  induction s with
  | nil => intro _; rfl
  | cons c t ih =>
    intro h
    rw [findAllOptions_eq_match, matchOption_head_ne t (h c (by simp))]
    exact ih fun x hx => h x (by simp [hx])

/-- No option match can start anywhere inside the opening select tag. -/
theorem clean_selectLit (b : List Char) :
    ∀ i, i < selectLit.length → matchOption (selectLit.drop i ++ b) = none := by
  intro i hi
  have hi44 : i < 44 := by
    have h44 : selectLit.length = 44 := rfl
    omega
  interval_cases i <;> rfl

/-- No option match can start anywhere inside the placeholder option (its
value is empty, so `(\w+)` fails at its own opening tag). -/
theorem clean_placeholder (b : List Char) :
    ∀ i, i < placeholderOption.length → matchOption (placeholderOption.drop i ++ b) = none := by
  intro i hi
  have h46 : placeholderOption.length = 46 := rfl
  have hi46 : i < 46 := by omega
  interval_cases i <;> rfl

/-- No option match can start inside the join separator. -/
theorem clean_joinSep (b : List Char) :
    ∀ i, i < ('\n' :: List.replicate 20 ' ').length →
      matchOption (('\n' :: List.replicate 20 ' ').drop i ++ b) = none := by
  intro i hi
  have hi21 : i < 21 := by simpa using hi
  interval_cases i <;> rfl

/-- No option match can start inside the closing whitespace-and-tag text. -/
theorem clean_selectTail (b : List Char) :
    ∀ i, i < ('\n' :: (List.replicate 16 ' ' ++ "</select>".toList)).length →
      matchOption (('\n' :: (List.replicate 16 ' ' ++ "</select>".toList)).drop i ++ b)
        = none := by
  intro i hi
  have hi26 : i < 26 := by simpa using hi
  interval_cases i <;> rfl

/-- Scanning the options of the freshly built block: the join separators
and the closing text contribute nothing, each option line contributes its
label, and a `'<'`-free suffix after the block contributes nothing. -/
theorem scan_options_tail (suf : List Char) (hsuf : ∀ c ∈ suf, c ≠ '<') :
    ∀ rs : List String, (∀ r ∈ rs, r ≠ "" ∧ ∀ c ∈ r.toList, isWordChar c) →
      findAllOptions ((rs.map fun r => joinSep ++ optionLine r).flatten ++
          ('\n' :: (List.replicate 16 ' ' ++ ("</select>".toList ++ suf))))
        = rs.map String.toList := by
  intro rs
  induction rs with
  | nil =>
    intro _
    rw [List.map_nil, List.flatten_nil, List.nil_append]
    have hre : ('\n' :: (List.replicate 16 ' ' ++ ("</select>".toList ++ suf))) =
        ('\n' :: (List.replicate 16 ' ' ++ "</select>".toList)) ++ suf := by
      simp
    rw [hre, findAllOptions_append_clean _ _ (fun i hi => clean_selectTail suf i hi)]
    exact findAllOptions_of_no_lt suf hsuf
  | cons r rs ih =>
    intro h
    obtain ⟨hne, hw⟩ := h r (by simp)
    have hne' : r.toList ≠ [] := by
      intro hx
      exact hne (by rw [← stringMk_toList r, hx])
    rw [List.map_cons, List.flatten_cons]
    have hre : (joinSep ++ optionLine r) ++
          ((rs.map fun x => joinSep ++ optionLine x).flatten ++
            ('\n' :: (List.replicate 16 ' ' ++ ("</select>".toList ++ suf)))) =
        ('\n' :: List.replicate 20 ' ') ++
          (optLit ++ (r.toList ++ '"' :: '>' :: (r.toList ++ ("</option>".toList ++
            ((rs.map fun x => joinSep ++ optionLine x).flatten ++
              ('\n' :: (List.replicate 16 ' ' ++ ("</select>".toList ++ suf)))))))) := by
      simp [joinSep, optionLine]
    rw [List.append_assoc, hre,
      findAllOptions_append_clean _ _ (fun i hi => clean_joinSep _ i hi),
      findAllOptions_eq_some (matchOption_at r.toList _ hne' hw),
      ih fun x hx => h x (by simp [hx])]
    rfl

/-- Decoding a document whose selection block has just been rebuilt: the
categories come back in sorted order, duplicates preserved. -/
theorem extract_after_regions_update (S : List String) (pre suf : List Char)
    (hword : ∀ r ∈ S, r ≠ "" ∧ ∀ c ∈ r.toList, isWordChar c)
    (hpre : ∀ c ∈ pre, c ≠ '<') (hsuf : ∀ c ∈ suf, c ≠ '<') :
    findAllOptions (pre ++ (newSelectBlock S ++ suf)) = (pySorted S).map String.toList := by
  have hpreclean : ∀ i, i < pre.length →
      matchOption (pre.drop i ++ (newSelectBlock S ++ suf)) = none := by
    intro i hi
    rw [List.drop_eq_getElem_cons hi, List.cons_append]
    exact matchOption_head_ne _ (hpre _ (List.getElem_mem hi))
  rw [findAllOptions_append_clean _ _ hpreclean]
  have hsort : ∀ r ∈ pySorted S, r ≠ "" ∧ ∀ c ∈ r.toList, isWordChar c :=
    fun r hr => hword r (((List.perm_insertionSort strLeRel S).mem_iff).mp hr)
  have hnorm : newSelectBlock S ++ suf =
      selectLit ++ (('\n' :: List.replicate 20 ' ') ++ (placeholderOption ++
        (((pySorted S).map fun x => joinSep ++ optionLine x).flatten ++
          ('\n' :: (List.replicate 16 ' ' ++ ("</select>".toList ++ suf)))))) := by
    simp [newSelectBlock, optionsJoined, intercalate_cons_eq, joinSep, List.append_assoc,
      Function.comp_def]
  rw [hnorm,
    findAllOptions_append_clean _ _ (fun i hi => clean_selectLit _ i hi),
    findAllOptions_append_clean _ _ (fun i hi => clean_joinSep _ i hi),
    findAllOptions_append_clean _ _ (fun i hi => clean_placeholder _ i hi)]
  exact scan_options_tail suf hsuf (pySorted S) hsort

theorem findSpan_of_match {openLit : List Char} {c0 : Char} {ct s mid r : List Char}
    (hop : openLit ≠ []) (hm : matchSpan openLit c0 ct s = some (mid, r)) :
    findSpan openLit c0 ct s = some ([], mid, r) := by
  cases s with
  | nil =>
    cases openLit with
    | nil => exact absurd rfl hop
    | cons o os => simp [matchSpan, chopLit] at hm
  | cons c t => rw [findSpan, hm]

set_option maxRecDepth 8000 in
set_option maxHeartbeats 2000000 in
/-- C2 counterexample: for the input category list `["X", "X"]` and a
document containing the designated selection block, decoding after
encoding yields `["X", "X"]` — `sorted(regions)` does not deduplicate, so
the result is not `sorted(unique(S))`. -/
theorem C2_counterexample :
    extract_regions (update_regions_in_html
        "a <select class=\"area-select\" id=\"areaSelect\">old</select> b" ["X", "X"])
      = ["X", "X"] ∧ ¬ (["X", "X"] : List String).Nodup := by
  constructor
  · rfl
  · decide

/-- C2 as amended: for a category list of non-empty word-character labels
and a document made of a `'<'`-free prefix, the designated selection
block (whose interior contains no early `</select>`), and a `'<'`-free
suffix, decoding the encoded document yields exactly `sorted(S)` with
duplicates preserved (not `sorted(unique(S))`). -/
theorem C2_amended_category_roundtrip (S : List String) (pre inner suf : List Char)
    (hword : ∀ r ∈ S, r ≠ "" ∧ ∀ c ∈ r.toList, isWordChar c)
    (hpre : ∀ c ∈ pre, c ≠ '<') (hsuf : ∀ c ∈ suf, c ≠ '<')
    (hinner : findLit '<' selectCloseTail (inner ++ "</select>".toList) = some (inner, [])) :
    extract_regions (update_regions_in_html
      (String.mk (pre ++ (selectLit ++ (inner ++ ("</select>".toList ++ suf))))) S)
      = pySorted S := by
  have hsel : selectLit = '<' :: "select class=\"area-select\" id=\"areaSelect\">".toList := rfl
  have happ : applyTemplate (newSelectBlock S) = some (newSelectBlock S) :=
    applyTemplate_id _ (newSelectBlock_no_backslash S fun r hr => (hword r hr).2)
  have hupd : update_regions_in_html
      (String.mk (pre ++ (selectLit ++ (inner ++ ("</select>".toList ++ suf))))) S =
      String.mk (subSpanAll selectLit '<' selectCloseTail (newSelectBlock S)
        (pre ++ (selectLit ++ (inner ++ ("</select>".toList ++ suf))))) := by
    unfold update_regions_in_html
    rw [happ]
    rfl
  have hmatch : matchSpan selectLit '<' selectCloseTail
      (selectLit ++ (inner ++ ("</select>".toList ++ suf))) = some (inner, suf) := by
    have hred : matchSpan selectLit '<' selectCloseTail
        (selectLit ++ (inner ++ ("</select>".toList ++ suf))) =
        findLit '<' selectCloseTail (inner ++ ("</select>".toList ++ suf)) := by
      unfold matchSpan
      rw [chopLit_refl]
    have hext := findLit_extend (inner ++ "</select>".toList) inner hinner suf
    rw [hred, ← List.append_assoc]
    exact hext
  have hclean : ∀ i, i < pre.length → matchSpan selectLit '<' selectCloseTail
      (pre.drop i ++ (selectLit ++ (inner ++ ("</select>".toList ++ suf)))) = none := by
    intro i hi
    rw [List.drop_eq_getElem_cons hi, List.cons_append, hsel]
    exact matchSpan_head_ne _ (hpre _ (List.getElem_mem hi))
  have hfind : findSpan selectLit '<' selectCloseTail
      (pre ++ (selectLit ++ (inner ++ ("</select>".toList ++ suf)))) =
      some (pre, inner, suf) := by
    rw [findSpan_skip pre _ hclean, findSpan_of_match (by simp [hsel]) hmatch]
    simp
  have hsubsuf : subSpanAll selectLit '<' selectCloseTail (newSelectBlock S) suf = suf := by
    apply subSpanAll_of_none
    rw [hsel]
    exact findSpan_none_of_all_ne suf hsuf
  have hsub : subSpanAll selectLit '<' selectCloseTail (newSelectBlock S)
      (pre ++ (selectLit ++ (inner ++ ("</select>".toList ++ suf)))) =
      pre ++ (newSelectBlock S ++ suf) := by
    rw [subSpanAll_eq_match, hfind]
    show pre ++ newSelectBlock S ++
        subSpanAll selectLit '<' selectCloseTail (newSelectBlock S) suf = _
    rw [hsubsuf, List.append_assoc]
  rw [hupd, hsub]
  unfold extract_regions
  rw [show (String.mk (pre ++ (newSelectBlock S ++ suf))).toList =
      pre ++ (newSelectBlock S ++ suf) from rfl]
  rw [extract_after_regions_update S pre suf hword hpre hsuf, List.map_map]
  have hid : (pySorted S).map (String.mk ∘ String.toList) = pySorted S :=
    (List.map_congr_left fun w _ => stringMk_toList w).trans (List.map_id _)
  rw [hid]
  exact List.filter_eq_self.mpr fun w hwmem => by
    simpa using (hword w (((List.perm_insertionSort strLeRel S).mem_iff).mp hwmem)).1

/-- Witness for the amended C2 at a concrete input with a duplicate. -/
theorem C2_amended_category_roundtrip_witness :
    extract_regions (update_regions_in_html
      (String.mk (("a " : String).toList ++ (selectLit ++ (("old" : String).toList ++
        ("</select>".toList ++ (" b" : String).toList))))) ["X", "X"])
      = pySorted ["X", "X"] :=
  C2_amended_category_roundtrip ["X", "X"] ("a ").toList ("old").toList (" b").toList
    (by decide) (by decide) (by decide) (by decide)

/-! ### The frame property of the substitution -/

/-- `re.sub` on a span pattern decomposes its input into alternating
untouched segments and matched spans, and rebuilds the output from the
same segments with every span replaced by the replacement text. -/
theorem subSpanAll_decomp (openLit : List Char) (c0 : Char) (ct rep : List Char) :
    ∀ n s, s.length ≤ n →
      ∃ segs mats : List (List Char),
        segs.length = mats.length + 1 ∧
        s = alternate segs mats ∧
        subSpanAll openLit c0 ct rep s = alternate segs (mats.map fun _ => rep) ∧
        ∀ m ∈ mats, ∃ mid, m = openLit ++ mid ++ (c0 :: ct) := by
  intro n
  induction n with
  | zero =>
    intro s hs
    have hnil : s = [] := List.eq_nil_of_length_eq_zero (Nat.le_zero.mp hs)
    subst hnil
    exact ⟨[[]], [], by simp, rfl, by rw [subSpanAll_eq_match]; rfl, by simp⟩
  | succ n ih =>
    intro s hs
    cases hf : findSpan openLit c0 ct s with
    | none =>
      refine ⟨[s], [], by simp, rfl, ?_, by simp⟩
      rw [subSpanAll_eq_match, hf]
      rfl
    | some q =>
      obtain ⟨pre, mid, r⟩ := q
      have hsplit := findSpan_eq hf
      have hlen := findSpan_rest_length hf
      obtain ⟨segs, mats, hcnt, hin, hout, hmats⟩ := ih r (by omega)
      refine ⟨pre :: segs, (openLit ++ mid ++ (c0 :: ct)) :: mats, by simp [hcnt], ?_, ?_, ?_⟩
      · rw [hsplit]
        show pre ++ openLit ++ mid ++ (c0 :: ct) ++ r =
          pre ++ (openLit ++ mid ++ (c0 :: ct)) ++ alternate segs mats
        rw [← hin]
        simp
      · rw [subSpanAll_eq_match, hf]
        show pre ++ rep ++ subSpanAll openLit c0 ct rep r =
          pre ++ rep ++ alternate segs (mats.map fun _ => rep)
        rw [hout]
      · intro m hm
        rcases List.mem_cons.mp hm with hmeq | hmmem
        · exact ⟨mid, hmeq⟩
        · exact hmats m hmmem

/-- C10: `update_dealers_in_html` changes only the spans of the text that
match the designated assignment-statement pattern
`const dealersData = \[[\s\S]*?\];`.  The input text decomposes into
alternating untouched segments and matched spans; the output consists of
the same segments, byte-for-byte, with one fixed replacement text
substituted for every span.  (On the exception path nothing changes:
the decomposition is the whole text with zero spans.) -/
theorem C10_frame_update_dealers (html : String) (dealers : List Record) :
    ∃ segs mats : List (List Char), ∃ rep : List Char,
      segs.length = mats.length + 1 ∧
      html.toList = alternate segs mats ∧
      (update_dealers_in_html html dealers).toList = alternate segs (mats.map fun _ => rep) ∧
      ∀ m ∈ mats, ∃ inner, m = stmtOpenLit ++ inner ++ (']' :: [';']) := by
  have key : ∀ tpl : List Char,
      ∃ segs mats : List (List Char), ∃ rep : List Char,
        segs.length = mats.length + 1 ∧
        html.toList = alternate segs mats ∧
        (match applyTemplate tpl with
          | none => html
          | some rep' => String.mk (subSpanAll stmtOpenLit ']' [';'] rep' html.toList)).toList
          = alternate segs (mats.map fun _ => rep) ∧
        ∀ m ∈ mats, ∃ inner, m = stmtOpenLit ++ inner ++ (']' :: [';']) := by
    intro tpl
    cases applyTemplate tpl with
    | none =>
      exact ⟨[html.toList], [], [], by simp, rfl, rfl, by simp⟩
    | some rep' =>
      obtain ⟨segs, mats, hcnt, hin, hout, hmats⟩ :=
        subSpanAll_decomp stmtOpenLit ']' [';'] rep' html.toList.length html.toList le_rfl
      exact ⟨segs, mats, rep', hcnt, hin, hout, hmats⟩
  exact key _

/-! ### Support for the record round trip (claim C1) -/

theorem dumps_arr0_eq (l : List Json) :
    dumpsVal 0 (.arr l) = '[' :: (arrInner l ++ [']']) := by
  cases l with
  | nil => rfl
  | cons x xs => simp [dumpsVal, arrInner]

theorem escapeChar_safe {c : Char} (h : safeChar c = true) : escapeChar c = [c] := by
  simp only [safeChar, Bool.and_eq_true, decide_eq_true_eq] at h
  obtain ⟨⟨⟨⟨h1, h2⟩, h3⟩, _⟩, _⟩ := h
  have hne : ∀ d : Char, d.toNat < 32 → c ≠ d := fun d hd he => by
    rw [he] at h1; omega
  have hlow : ¬ c.toNat < 32 := by omega
  unfold escapeChar
  rw [if_neg h2, if_neg h3, if_neg (hne _ (by decide)), if_neg (hne _ (by decide)),
    if_neg (hne _ (by decide)), if_neg (hne _ (by decide)), if_neg (hne _ (by decide)),
    if_neg hlow]

theorem escapeStr_safe {s : List Char} (h : ∀ c ∈ s, safeChar c = true) :
    escapeStr s = s := by
  induction s with
  | nil => rfl
  | cons c t ih =>
    have h1 : escapeStr (c :: t) = escapeChar c ++ escapeStr t := by
      simp [escapeStr]
    rw [h1, escapeChar_safe (h c (by simp)), ih fun x hx => h x (by simp [hx])]
    rfl

theorem dumpsStr_safe {f : String} (h : ∀ c ∈ f.toList, safeChar c = true) :
    dumpsStr f = '"' :: (f.toList ++ ['"']) := by
  unfold dumpsStr
  rw [escapeStr_safe h, List.cons_append]

theorem noCloseSemi_tail {c : Char} {l : List Char} (h : noCloseSemi (c :: l) = true) :
    noCloseSemi l = true := by
  rw [noCloseSemi, Bool.and_eq_true] at h
  exact h.2

theorem noCloseSemi_pair {c d : Char} {l : List Char}
    (h : noCloseSemi (c :: d :: l) = true) : ¬ (c = ']' ∧ d = ';') := by
  rintro ⟨rfl, rfl⟩
  simp [noCloseSemi] at h

theorem noCloseSemi_cons {c : Char} {l : List Char} (h1 : noCloseSemi l = true)
    (h2 : c = ']' → l.head? ≠ some ';') : noCloseSemi (c :: l) = true := by
  rw [noCloseSemi, Bool.and_eq_true]
  refine ⟨?_, h1⟩
  simp only [Bool.not_eq_true', Bool.and_eq_false_iff, beq_eq_false_iff_ne, ne_eq]
  by_cases hc : c = ']'
  · exact Or.inr (h2 hc)
  · exact Or.inl hc

theorem noCloseSemi_append {a b : List Char} (ha : noCloseSemi a = true)
    (hb : noCloseSemi b = true) (hhead : b.head? ≠ some ';') :
    noCloseSemi (a ++ b) = true := by
  induction a with
  | nil => exact hb
  | cons c a' ih =>
    have ih' := ih (noCloseSemi_tail ha)
    rw [List.cons_append]
    refine noCloseSemi_cons ih' fun hc => ?_
    cases a' with
    | nil => exact hhead
    | cons d a'' =>
      intro hh
      simp at hh
      exact noCloseSemi_pair ha ⟨hc, hh⟩

theorem noCloseSemi_of_append_left {a b : List Char}
    (h : noCloseSemi (a ++ b) = true) : noCloseSemi a = true := by
  induction a with
  | nil => rfl
  | cons c a' ih =>
    have ht : noCloseSemi a' = true := ih (noCloseSemi_tail h)
    refine noCloseSemi_cons ht fun hc hh => ?_
    cases a' with
    | nil => simp at hh
    | cons d a'' =>
      simp at hh
      exact noCloseSemi_pair h ⟨hc, hh⟩

theorem noCloseSemi_of_no_semi {l : List Char} (h : ∀ c ∈ l, c ≠ ';') :
    noCloseSemi l = true := by
  induction l with
  | nil => rfl
  | cons c t ih =>
    refine noCloseSemi_cons (ih fun x hx => h x (by simp [hx])) fun _ hh => ?_
    cases t with
    | nil => simp at hh
    | cons d t' =>
      simp at hh
      exact h d (by simp) hh

theorem jsonNl_ws {k : Nat} : ∀ c ∈ jsonNl k, isJsonWs c = true := by
  intro c hc
  rw [jsonNl] at hc
  rcases List.mem_cons.mp hc with rfl | hc
  · rfl
  · rw [List.eq_of_mem_replicate hc]; rfl

theorem skipWs_append_ws {ws s : List Char} (h : ∀ c ∈ ws, isJsonWs c = true) :
    skipWs (ws ++ s) = skipWs s :=
  dropWhile_append_pos s h

theorem skipWs_cons_neg {c : Char} {s : List Char} (h : isJsonWs c = false) :
    skipWs (c :: s) = c :: s := by
  simp [skipWs, List.dropWhile_cons, h]

/-! ### The key-quoting substitution is transparent to serializer output -/

theorem qkGo_step (r : List Char) (c : Char) (t : List Char) :
    qkGo r (c :: t) =
      if isWordChar c = true then qkGo (c :: r) t
      else if c = ':' ∧ r ≠ [] then '"' :: r.reverse ++ '"' :: ':' :: qkGo [] t
      else r.reverse ++ c :: qkGo [] t := rfl

theorem qkGo_append : ∀ (l : List Char), l ≠ [] →
    (∀ c, l.getLast? = some c → isWordChar c = false) →
    ∀ run rest, qkGo run (l ++ rest) = qkGo run l ++ qkGo [] rest := by
  intro l
  induction l with
  | nil => intro h; exact absurd rfl h
  | cons c l' ih =>
    intro _ hend run rest
    cases l' with
    | nil =>
      have hc : isWordChar c = false := hend c (by simp)
      have hcF : ¬ isWordChar c = true := by simp [hc]
      rw [List.cons_append, List.nil_append, qkGo_step, qkGo_step, if_neg hcF, if_neg hcF]
      by_cases hcol : c = ':' ∧ run ≠ []
      · rw [if_pos hcol, if_pos hcol]
        show _ = ('"' :: run.reverse ++ '"' :: ':' :: qkGo [] []) ++ qkGo [] rest
        simp [qkGo]
      · rw [if_neg hcol, if_neg hcol]
        show _ = (run.reverse ++ c :: qkGo [] []) ++ qkGo [] rest
        simp [qkGo]
    | cons d l'' =>
      have hl' : (d :: l'') ≠ [] := by simp
      have hend' : ∀ x, (d :: l'').getLast? = some x → isWordChar x = false := by
        intro x hx
        exact hend x (by rw [List.getLast?_cons_cons]; exact hx)
      have ihh : ∀ r, qkGo r ((d :: l'') ++ rest) = qkGo r (d :: l'') ++ qkGo [] rest :=
        fun r => ih hl' hend' r rest
      rw [List.cons_append, qkGo_step, qkGo_step]
      by_cases hw : isWordChar c = true
      · rw [if_pos hw, if_pos hw, ihh (c :: run)]
      · rw [if_neg hw, if_neg hw]
        by_cases hcol : c = ':' ∧ run ≠ []
        · rw [if_pos hcol, if_pos hcol, ihh []]
          simp
        · rw [if_neg hcol, if_neg hcol, ihh []]
          simp

theorem QK_nil : QK [] := fun rest => by simp [quoteKeys]

theorem QK_append {a b : List Char} (ha : QK a) (hb : QK b) : QK (a ++ b) := by
  intro rest
  rw [List.append_assoc, ha (b ++ rest), hb rest, ← List.append_assoc]

theorem QK_of_id {l : List Char} (hne : l ≠ [])
    (hend : ∀ c, l.getLast? = some c → isWordChar c = false)
    (hid : quoteKeys l = l) : QK l := by
  intro rest
  show qkGo [] (l ++ rest) = l ++ qkGo [] rest
  rw [qkGo_append l hne hend [] rest]
  exact congrArg (· ++ qkGo [] rest) hid

theorem QK_single {c : Char} (hw : isWordChar c = false) : QK [c] := by
  refine QK_of_id (by simp) (fun x hx => by simp at hx; rw [← hx]; exact hw) ?_
  rw [quoteKeys, qkGo_step, if_neg (by simp [hw]), if_neg (by simp)]
  rfl

theorem QK_replicate_space (n : Nat) : QK (List.replicate n ' ') := by
  induction n with
  | zero => exact QK_nil
  | succ n ih =>
    rw [List.replicate_succ,
      show (' ' :: List.replicate n ' ' : List Char) = [' '] ++ List.replicate n ' ' from rfl]
    exact QK_append (QK_single (by decide)) ih

theorem QK_jsonNl (k : Nat) : QK (jsonNl k) := by
  rw [jsonNl,
    show ('\n' :: List.replicate (12 * k) ' ' : List Char)
      = ['\n'] ++ List.replicate (12 * k) ' ' from rfl]
  exact QK_append (QK_single (by decide)) (QK_replicate_space _)

/-- On a text without colons the key-quoting scan copies its input: the
substitution fires only at a `:`. -/
theorem qkGo_no_colon : ∀ {l : List Char}, ':' ∉ l →
    ∀ run, qkGo run l = run.reverse ++ l := by
  intro l
  induction l with
  | nil => intro _ run; simp [qkGo]
  | cons c t ih =>
    intro h run
    rw [qkGo_step]
    by_cases hw : isWordChar c = true
    · rw [if_pos hw, ih (fun hm => h (by simp [hm])) (c :: run)]
      simp
    · have hcol : ¬ (c = ':' ∧ run ≠ []) := by
        rintro ⟨rfl, _⟩
        exact h (by simp)
      rw [if_neg hw, if_neg hcol, ih (fun hm => h (by simp [hm])) []]
      simp

theorem quoteKeys_no_colon {l : List Char} (h : ':' ∉ l) : quoteKeys l = l := by
  rw [quoteKeys, qkGo_no_colon h []]
  rfl

/-! ### The glyph substitutions are transparent to serializer output -/

theorem replaceRupee_id : ∀ {s : List Char}, (∀ c ∈ s, c ≠ Char.ofNat 0xe2) →
    replaceRupee s = s := by
  intro s
  induction s with
  | nil => intro _; rfl
  | cons a t ih =>
    intro h
    cases t with
    | nil => rfl
    | cons b t' =>
      cases t' with
      | nil => rfl
      | cons e t'' =>
        have hstep : replaceRupee (a :: b :: e :: t'') =
            if a = Char.ofNat 0xe2 ∧ b = Char.ofNat 0x201a ∧ e = Char.ofNat 0xb9 then
              Char.ofNat 0x20b9 :: replaceRupee t''
            else a :: replaceRupee (b :: e :: t'') := rfl
        rw [hstep, if_neg fun hx => h a (by simp) hx.1,
          ih fun x hx => h x (by simp [hx])]

theorem replaceStar_id : ∀ {s : List Char}, (∀ c ∈ s, c ≠ Char.ofNat 0xe2) →
    replaceStar s = s := by
  intro s
  induction s with
  | nil => intro _; rfl
  | cons a t ih =>
    intro h
    cases t with
    | nil => rfl
    | cons b t' =>
      have hstep : replaceStar (a :: b :: t') =
          if a = Char.ofNat 0xe2 ∧ b = Char.ofNat 0xad then
            Char.ofNat 0x2b50 :: replaceStar t'
          else a :: replaceStar (b :: t') := rfl
      rw [hstep, if_neg fun hx => h a (by simp) hx.1,
        ih fun x hx => h x (by simp [hx])]

theorem replacePhone_id : ∀ {s : List Char}, (∀ c ∈ s, c ≠ Char.ofNat 0xf0) →
    replacePhone s = s := by
  intro s
  induction s with
  | nil => intro _; rfl
  | cons a t ih =>
    intro h
    cases t with
    | nil => rfl
    | cons b t' =>
      cases t' with
      | nil => rfl
      | cons e t'' =>
        cases t'' with
        | nil => rfl
        | cons e2 t3 =>
          have hstep : replacePhone (a :: b :: e :: e2 :: t3) =
              if a = Char.ofNat 0xf0 ∧ b = Char.ofNat 0x178 ∧ e = Char.ofNat 0x22 ∧
                  e2 = Char.ofNat 0x17e then
                Char.ofNat 0x1f4de :: replacePhone t3
              else a :: replacePhone (b :: e :: e2 :: t3) := rfl
          rw [hstep, if_neg fun hx => h a (by simp) hx.1,
            ih fun x hx => h x (by simp [hx])]

theorem fixGlyphs_id {s : List Char} (h2 : ∀ c ∈ s, c ≠ Char.ofNat 0xe2)
    (h3 : ∀ c ∈ s, c ≠ Char.ofNat 0xf0) : fixGlyphs s = s := by
  rw [fixGlyphs, replaceRupee_id h2, replaceStar_id h2, replacePhone_id h3]

/-! ### Good chunks: closure and concrete pieces -/

theorem goodPiece_append {a b : List Char} (ha : GoodPiece a) (hb : GoodPiece b) :
    GoodPiece (a ++ b) := by
  obtain ⟨ha1, ha2, ha3⟩ := ha
  obtain ⟨hb1, hb2, hb3⟩ := hb
  refine ⟨?_, noCloseSemi_append ha2 hb2 hb3, ?_⟩
  · intro c hc
    rcases List.mem_append.mp hc with h | h
    · exact ha1 c h
    · exact hb1 c h
  · cases a with
    | nil => simpa using hb3
    | cons x a' =>
      rw [List.cons_append]
      simpa using ha3

theorem goodChunk_nil : GoodChunk [] := ⟨⟨by simp, rfl, by simp⟩, QK_nil⟩

theorem goodChunk_append {a b : List Char} (ha : GoodChunk a) (hb : GoodChunk b) :
    GoodChunk (a ++ b) :=
  ⟨goodPiece_append ha.1 hb.1, QK_append ha.2 hb.2⟩

/-- A one-shot decidable check sufficient for `GoodChunk`, for concrete
pieces of serializer output. -/
theorem goodChunk_of_checks (l : List Char) (hne : l ≠ [])
    (hend : ∀ c, l.getLast? = some c → isWordChar c = false)
    (hgp : ∀ c ∈ l, c ∈ dumpsFixedChars ∨ safeChar c = true)
    (hnc : noCloseSemi l = true) (hh : l.head? ≠ some ';')
    (hid : quoteKeys l = l) : GoodChunk l :=
  ⟨⟨hgp, hnc, hh⟩, QK_of_id hne hend hid⟩

theorem lastChar_helper {l : List Char} {a : Char} (h : l.getLast? = some a)
    (ha : isWordChar a = false) : ∀ c, l.getLast? = some c → isWordChar c = false := by
  intro c hc
  rw [h] at hc
  injection hc with h2
  rw [← h2]
  exact ha

/-- `GoodChunk` for a concrete piece, from a decidable check of each
component. -/
theorem goodChunk_concrete (l : List Char) (a : Char) (hlast : l.getLast? = some a)
    (ha : isWordChar a = false)
    (hgp : ∀ c ∈ l, c ∈ dumpsFixedChars ∨ safeChar c = true)
    (hnc : noCloseSemi l = true) (hh : l.head? ≠ some ';')
    (hid : quoteKeys l = l) : GoodChunk l :=
  goodChunk_of_checks l
    (fun h => by rw [h] at hlast; exact absurd hlast (by simp))
    (lastChar_helper hlast ha) hgp hnc hh hid

theorem gc_piece_lbrack : GoodChunk ['['] :=
  goodChunk_concrete _ '[' (by decide) (by decide) (by decide) (by decide) (by decide) (by decide)

theorem gc_piece_rbrack : GoodChunk [']'] :=
  goodChunk_concrete _ ']' (by decide) (by decide) (by decide) (by decide) (by decide) (by decide)

theorem gc_piece_lbrace : GoodChunk ['{'] :=
  goodChunk_concrete _ '{' (by decide) (by decide) (by decide) (by decide) (by decide) (by decide)

theorem gc_piece_rbrace : GoodChunk ['}'] :=
  goodChunk_concrete _ '}' (by decide) (by decide) (by decide) (by decide) (by decide) (by decide)

theorem gc_piece_comma : GoodChunk [','] :=
  goodChunk_concrete _ ',' (by decide) (by decide) (by decide) (by decide) (by decide) (by decide)

theorem gc_piece_colon : GoodChunk [':', ' '] :=
  goodChunk_concrete _ ' ' (by decide) (by decide) (by decide) (by decide) (by decide) (by decide)

theorem gc_piece_brackets : GoodChunk ['[', ']'] :=
  goodChunk_concrete _ ']' (by decide) (by decide) (by decide) (by decide) (by decide) (by decide)

theorem gc_piece_braces : GoodChunk ['{', '}'] :=
  goodChunk_concrete _ '}' (by decide) (by decide) (by decide) (by decide) (by decide) (by decide)

theorem gc_key_name : GoodChunk (dumpsStr "name") :=
  goodChunk_concrete _ '"' (by decide) (by decide) (by decide) (by decide) (by decide) (by decide)

theorem gc_key_contact : GoodChunk (dumpsStr "contact") :=
  goodChunk_concrete _ '"' (by decide) (by decide) (by decide) (by decide) (by decide) (by decide)

theorem gc_key_rating : GoodChunk (dumpsStr "rating") :=
  goodChunk_concrete _ '"' (by decide) (by decide) (by decide) (by decide) (by decide) (by decide)

theorem gc_key_regions : GoodChunk (dumpsStr "regions") :=
  goodChunk_concrete _ '"' (by decide) (by decide) (by decide) (by decide) (by decide) (by decide)

theorem gc_key_paddyTypes : GoodChunk (dumpsStr "paddyTypes") :=
  goodChunk_concrete _ '"' (by decide) (by decide) (by decide) (by decide) (by decide) (by decide)

theorem gc_key_price : GoodChunk (dumpsStr "price") :=
  goodChunk_concrete _ '"' (by decide) (by decide) (by decide) (by decide) (by decide) (by decide)

theorem gc_key_unit : GoodChunk (dumpsStr "unit") :=
  goodChunk_concrete _ '"' (by decide) (by decide) (by decide) (by decide) (by decide) (by decide)

theorem goodChunk_jsonNl (k : Nat) : GoodChunk (jsonNl k) := by
  refine ⟨⟨?_, ?_, ?_⟩, QK_jsonNl k⟩
  · intro c hc
    rw [jsonNl] at hc
    rcases List.mem_cons.mp hc with rfl | hc
    · exact Or.inl (by decide)
    · rw [List.eq_of_mem_replicate hc]; exact Or.inl (by decide)
  · apply noCloseSemi_of_no_semi
    intro c hc
    rw [jsonNl] at hc
    rcases List.mem_cons.mp hc with rfl | hc
    · decide
    · rw [List.eq_of_mem_replicate hc]; decide
  · rw [jsonNl]
    simp only [List.head?_cons, ne_eq, Option.some.injEq]
    decide

theorem goodChunk_dumpsStr {f : String} (hf : SafeField f) : GoodChunk (dumpsStr f) := by
  obtain ⟨h1, h2, h3⟩ := hf
  rw [dumpsStr_safe h1]
  refine ⟨⟨?_, ?_, by simp⟩, ?_⟩
  · intro c hc
    rcases List.mem_cons.mp hc with rfl | hc
    · exact Or.inl (by decide)
    · rcases List.mem_append.mp hc with h | h
      · exact Or.inr (h1 c h)
      · simp at h; rw [h]; exact Or.inl (by decide)
  · refine noCloseSemi_cons (noCloseSemi_append h2 (by decide) (by decide)) fun hq => ?_
    exact absurd hq (by decide)
  · refine QK_of_id (by simp) ?_ ?_
    · have hl : ('"' :: (f.toList ++ ['"'])).getLast? = some '"' := by
        rw [← List.cons_append, List.getLast?_concat]
      exact lastChar_helper hl (by decide)
    · apply quoteKeys_no_colon
      intro hm
      rcases List.mem_cons.mp hm with he | hm
      · exact absurd he (by decide)
      · rcases List.mem_append.mp hm with hm | hm
        · exact h3 hm
        · rw [List.mem_singleton] at hm
          exact absurd hm (by decide)

theorem goodChunk_items {lvl : Nat} : ∀ {xs : List Json},
    (∀ x ∈ xs, GoodChunk (dumpsVal lvl x)) → GoodChunk (dumpsItems lvl xs) := by
  intro xs
  induction xs with
  | nil => intro _; exact goodChunk_nil
  | cons x ys ih =>
    intro h
    cases ys with
    | nil =>
      rw [show dumpsItems lvl [x] = dumpsVal lvl x from rfl]
      exact h x (by simp)
    | cons y ys' =>
      rw [show dumpsItems lvl (x :: y :: ys') =
          (dumpsVal lvl x ++ (',' :: jsonNl lvl)) ++ dumpsItems lvl (y :: ys') from rfl,
        show (',' :: jsonNl lvl : List Char) = [','] ++ jsonNl lvl from rfl]
      exact goodChunk_append
        (goodChunk_append (h x (by simp))
          (goodChunk_append gc_piece_comma (goodChunk_jsonNl lvl)))
        (ih fun z hz => h z (by simp [hz]))

theorem goodChunk_members {lvl : Nat} : ∀ {kvs : List (String × Json)},
    (∀ kv ∈ kvs, GoodChunk (dumpsStr kv.1) ∧ GoodChunk (dumpsVal lvl kv.2)) →
    GoodChunk (dumpsMembers lvl kvs) := by
  intro kvs
  induction kvs with
  | nil => intro _; exact goodChunk_nil
  | cons kv rest ih =>
    obtain ⟨k, v⟩ := kv
    intro h
    cases rest with
    | nil =>
      rw [show dumpsMembers lvl [(k, v)] =
          dumpsStr k ++ (':' :: ' ' :: dumpsVal lvl v) from rfl,
        show (':' :: ' ' :: dumpsVal lvl v : List Char) = [':', ' '] ++ dumpsVal lvl v from rfl]
      exact goodChunk_append (h (k, v) (by simp)).1
        (goodChunk_append gc_piece_colon (h (k, v) (by simp)).2)
    | cons kv2 rest' =>
      rw [show dumpsMembers lvl ((k, v) :: kv2 :: rest') =
          ((dumpsStr k ++ (':' :: ' ' :: dumpsVal lvl v)) ++ (',' :: jsonNl lvl)) ++
            dumpsMembers lvl (kv2 :: rest') from rfl,
        show (':' :: ' ' :: dumpsVal lvl v : List Char) = [':', ' '] ++ dumpsVal lvl v from rfl,
        show (',' :: jsonNl lvl : List Char) = [','] ++ jsonNl lvl from rfl]
      exact goodChunk_append
        (goodChunk_append
          (goodChunk_append (h (k, v) (by simp)).1
            (goodChunk_append gc_piece_colon (h (k, v) (by simp)).2))
          (goodChunk_append gc_piece_comma (goodChunk_jsonNl lvl)))
        (ih fun z hz => h z (by simp [hz]))

theorem goodChunk_val_arr {lvl : Nat} {xs : List Json}
    (h : ∀ x ∈ xs, GoodChunk (dumpsVal (lvl + 1) x)) :
    GoodChunk (dumpsVal lvl (.arr xs)) := by
  cases xs with
  | nil =>
    rw [show dumpsVal lvl (.arr []) = ['[', ']'] from rfl]
    exact gc_piece_brackets
  | cons x xs' =>
    rw [show dumpsVal lvl (.arr (x :: xs')) =
        ((('[' :: jsonNl (lvl + 1)) ++ dumpsItems (lvl + 1) (x :: xs')) ++ jsonNl lvl) ++ [']']
        from rfl,
      show ('[' :: jsonNl (lvl + 1) : List Char) = ['['] ++ jsonNl (lvl + 1) from rfl]
    exact goodChunk_append
      (goodChunk_append
        (goodChunk_append (goodChunk_append gc_piece_lbrack (goodChunk_jsonNl (lvl + 1)))
          (goodChunk_items h))
        (goodChunk_jsonNl lvl))
      gc_piece_rbrack

theorem goodChunk_val_obj {lvl : Nat} {kvs : List (String × Json)}
    (h : ∀ kv ∈ kvs, GoodChunk (dumpsStr kv.1) ∧ GoodChunk (dumpsVal (lvl + 1) kv.2)) :
    GoodChunk (dumpsVal lvl (.obj kvs)) := by
  cases kvs with
  | nil =>
    rw [show dumpsVal lvl (.obj []) = ['{', '}'] from rfl]
    exact gc_piece_braces
  | cons kv kvs' =>
    rw [show dumpsVal lvl (.obj (kv :: kvs')) =
        ((('{' :: jsonNl (lvl + 1)) ++ dumpsMembers (lvl + 1) (kv :: kvs')) ++ jsonNl lvl) ++ ['}']
        from rfl,
      show ('{' :: jsonNl (lvl + 1) : List Char) = ['{'] ++ jsonNl (lvl + 1) from rfl]
    exact goodChunk_append
      (goodChunk_append
        (goodChunk_append (goodChunk_append gc_piece_lbrace (goodChunk_jsonNl (lvl + 1)))
          (goodChunk_members h))
        (goodChunk_jsonNl lvl))
      gc_piece_rbrace

theorem goodChunk_paddy {lvl : Nat} {p : Paddy} (h1 : SafeField p.name)
    (h2 : SafeField p.price) (h3 : SafeField p.unit) :
    GoodChunk (dumpsVal lvl (paddyToJson p)) := by
  rw [paddyToJson]
  apply goodChunk_val_obj
  intro kv hkv
  simp only [List.mem_cons, List.not_mem_nil, or_false] at hkv
  rcases hkv with rfl | rfl | rfl
  · exact ⟨gc_key_name, goodChunk_dumpsStr h1⟩
  · exact ⟨gc_key_price, goodChunk_dumpsStr h2⟩
  · exact ⟨gc_key_unit, goodChunk_dumpsStr h3⟩

theorem goodChunk_record {lvl : Nat} {r : Record} (hr : SafeRecord r) :
    GoodChunk (dumpsVal lvl (recordToJson r)) := by
  have hname : SafeField r.name := hr _ (by simp [recordFields])
  have hcontact : SafeField r.contact := hr _ (by simp [recordFields])
  have hrating : SafeField r.rating := hr _ (by simp [recordFields])
  have hregions : ∀ f ∈ r.regions, SafeField f := fun f hf =>
    hr f (by simp [recordFields, hf])
  have hps : ∀ p ∈ r.paddyTypes, SafeField p.name ∧ SafeField p.price ∧ SafeField p.unit := by
    intro p hp
    refine ⟨hr _ ?_, hr _ ?_, hr _ ?_⟩ <;>
    · simp only [recordFields, List.mem_append, List.mem_flatten, List.mem_map]
      exact Or.inr ⟨[p.name, p.price, p.unit], ⟨p, hp, rfl⟩, by simp⟩
  rw [recordToJson]
  apply goodChunk_val_obj
  intro kv hkv
  simp only [List.mem_cons, List.not_mem_nil, or_false] at hkv
  rcases hkv with rfl | rfl | rfl | rfl | rfl
  · exact ⟨gc_key_name, goodChunk_dumpsStr hname⟩
  · exact ⟨gc_key_contact, goodChunk_dumpsStr hcontact⟩
  · exact ⟨gc_key_rating, goodChunk_dumpsStr hrating⟩
  · refine ⟨gc_key_regions, goodChunk_val_arr fun x hx => ?_⟩
    rcases List.mem_map.mp hx with ⟨f, hf, rfl⟩
    exact goodChunk_dumpsStr (hregions f hf)
  · refine ⟨gc_key_paddyTypes, goodChunk_val_arr fun x hx => ?_⟩
    rcases List.mem_map.mp hx with ⟨p, hp, rfl⟩
    exact goodChunk_paddy (hps p hp).1 (hps p hp).2.1 (hps p hp).2.2

theorem goodChunk_top {R : List Record} (h : ∀ r ∈ R, SafeRecord r) :
    GoodChunk (dumpsVal 0 (.arr (R.map recordToJson))) :=
  goodChunk_val_arr fun x hx => by
    rcases List.mem_map.mp hx with ⟨r, hrm, rfl⟩
    exact goodChunk_record (h r hrm)

/-! ### The parser consumes serializer output exactly -/

theorem parseValue_eq_body (fu : Nat) (s : List Char) :
    parseValue (fu + 1) s =
      match skipWs s with
      | 'n' :: 'u' :: 'l' :: 'l' :: r => some (.null, r)
      | 't' :: 'r' :: 'u' :: 'e' :: r => some (.bool true, r)
      | 'f' :: 'a' :: 'l' :: 's' :: 'e' :: r => some (.bool false, r)
      | 'N' :: 'a' :: 'N' :: r => some (.num "NaN", r)
      | 'I' :: 'n' :: 'f' :: 'i' :: 'n' :: 'i' :: 't' :: 'y' :: r => some (.num "Infinity", r)
      | '-' :: 'I' :: 'n' :: 'f' :: 'i' :: 'n' :: 'i' :: 't' :: 'y' :: r =>
        some (.num "-Infinity", r)
      | '"' :: t => (parseStringBody t).map fun p => (.str (String.mk p.1), p.2)
      | '[' :: t =>
        (match skipWs t with
        | ']' :: r => some (.arr [], r)
        | u => (parseItems fu u).map fun p => (.arr p.1, p.2))
      | '{' :: t =>
        (match skipWs t with
        | '}' :: r => some (.obj [], r)
        | u => (parseMembers fu u).map fun p => (.obj (dedupKeys p.1), p.2))
      | s1 => (parseNumberLex s1).map fun p => (.num (String.mk p.1), p.2) := rfl

theorem parseItems_eq_body (fu : Nat) (s : List Char) :
    parseItems (fu + 1) s =
      match parseValue fu s with
      | none => none
      | some (v, r) =>
        match skipWs r with
        | ',' :: r2 => (parseItems fu r2).map fun p => (v :: p.1, p.2)
        | ']' :: r2 => some ([v], r2)
        | _ => none := rfl

theorem parseMembers_eq_body (fu : Nat) (s : List Char) :
    parseMembers (fu + 1) s =
      match skipWs s with
      | '"' :: t =>
        match parseStringBody t with
        | none => none
        | some (k, r) =>
          match skipWs r with
          | ':' :: r2 =>
            match parseValue fu r2 with
            | none => none
            | some (v, r3) =>
              match skipWs r3 with
              | ',' :: r4 => (parseMembers fu r4).map fun p => ((String.mk k, v) :: p.1, p.2)
              | '}' :: r4 => some ([(String.mk k, v)], r4)
              | _ => none
          | _ => none
      | _ => none := rfl

theorem parseStringBody_safe : ∀ {l : List Char}, (∀ c ∈ l, safeChar c = true) →
    ∀ rest, parseStringBody (l ++ '"' :: rest) = some (l, rest) := by
  intro l
  induction l with
  | nil => intro _ rest; rfl
  | cons c t ih =>
    intro h rest
    have hs := h c (by simp)
    simp only [safeChar, Bool.and_eq_true, decide_eq_true_eq] at hs
    obtain ⟨⟨⟨⟨h1, h2⟩, h3⟩, _⟩, _⟩ := hs
    have hctrl : ¬ c.toNat < 32 := by omega
    rw [List.cons_append]
    show (if c = '"' then some ([], t ++ '"' :: rest)
      else if c = '\\' then parseStringEsc (t ++ '"' :: rest)
      else if c.toNat < 32 then none
      else (parseStringBody (t ++ '"' :: rest)).map fun p => (c :: p.1, p.2))
      = some (c :: t, rest)
    rw [if_neg h2, if_neg h3, if_neg hctrl, ih (fun x hx => h x (by simp [hx])) rest]
    rfl

theorem str_goodVal {lvl : Nat} {f : String} (hf : SafeField f) : GoodVal lvl (.str f) := by
  constructor
  · intro fu ws rest hws
    rw [show dumpsVal lvl (.str f) = dumpsStr f from rfl, dumpsStr_safe hf.1,
      parseValue_eq_body, List.cons_append, skipWs_append_ws hws,
      skipWs_cons_neg (by decide)]
    show (parseStringBody ((f.toList ++ ['"']) ++ rest)).map
      (fun p => (Json.str (String.mk p.1), p.2)) = some (.str f, rest)
    rw [List.append_assoc, show (['"'] ++ rest : List Char) = '"' :: rest from rfl,
      parseStringBody_safe hf.1 rest]
    simp [stringMk_toList]
  · refine ⟨'"', f.toList ++ ['"'], ?_, by decide, by decide, by decide⟩
    rw [show dumpsVal lvl (.str f) = dumpsStr f from rfl]
    exact dumpsStr_safe hf.1

theorem items_parse {lvl : Nat} : ∀ {xs : List Json}, xs ≠ [] →
    (∀ x ∈ xs, GoodVal (lvl + 1) x) →
    ∀ fu ws rest, (∀ c ∈ ws, isJsonWs c = true) →
      parseItems (fu + pcostItems xs)
          (ws ++ (dumpsItems (lvl + 1) xs ++ (jsonNl lvl ++ (']' :: rest))))
        = some (xs, rest) := by
  intro xs
  induction xs with
  | nil => intro h; exact absurd rfl h
  | cons x ys ih =>
    intro _ h fu ws rest hws
    cases ys with
    | nil =>
      have hfuel : fu + pcostItems [x] = (fu + pcost x + 1) + 1 := by
        rw [show pcostItems [x] = pcost x + 2 + 0 from rfl]
        omega
      rw [hfuel, parseItems_eq_body,
        show dumpsItems (lvl + 1) [x] = dumpsVal (lvl + 1) x from rfl,
        (h x (by simp)).1 fu ws (jsonNl lvl ++ (']' :: rest)) hws]
      show (match skipWs (jsonNl lvl ++ (']' :: rest)) with
        | ',' :: r2 => (parseItems (fu + pcost x + 1) r2).map fun p => (x :: p.1, p.2)
        | ']' :: r2 => some ([x], r2)
        | _ => none) = some ([x], rest)
      rw [skipWs_append_ws jsonNl_ws, skipWs_cons_neg (by decide)]
      rfl
    | cons y ys' =>
      have hfuel : fu + pcostItems (x :: y :: ys') =
          (((fu + pcostItems (y :: ys')) + pcost x + 1)) + 1 := by
        rw [show pcostItems (x :: y :: ys') = pcost x + 2 + pcostItems (y :: ys') from rfl]
        omega
      rw [hfuel, parseItems_eq_body,
        show dumpsItems (lvl + 1) (x :: y :: ys') =
          (dumpsVal (lvl + 1) x ++ (',' :: jsonNl (lvl + 1))) ++ dumpsItems (lvl + 1) (y :: ys')
          from rfl]
      simp only [List.append_assoc, List.cons_append]
      rw [(h x (by simp)).1 (fu + pcostItems (y :: ys')) ws
        (',' :: (jsonNl (lvl + 1) ++ (dumpsItems (lvl + 1) (y :: ys') ++
          (jsonNl lvl ++ (']' :: rest))))) hws]
      show (match skipWs (',' :: (jsonNl (lvl + 1) ++ (dumpsItems (lvl + 1) (y :: ys') ++
          (jsonNl lvl ++ (']' :: rest))))) with
        | ',' :: r2 => (parseItems ((fu + pcostItems (y :: ys')) + pcost x + 1) r2).map
            fun p => (x :: p.1, p.2)
        | ']' :: r2 => some ([x], r2)
        | _ => none) = some (x :: y :: ys', rest)
      rw [skipWs_cons_neg (by decide)]
      show (parseItems ((fu + pcostItems (y :: ys')) + pcost x + 1)
          (jsonNl (lvl + 1) ++ (dumpsItems (lvl + 1) (y :: ys') ++
            (jsonNl lvl ++ (']' :: rest))))).map (fun p => (x :: p.1, p.2))
        = some (x :: y :: ys', rest)
      have harith : (fu + pcostItems (y :: ys')) + pcost x + 1 =
          (fu + pcost x + 1) + pcostItems (y :: ys') := by omega
      rw [harith,
        ih (by simp) (fun z hz => h z (by simp [hz])) (fu + pcost x + 1) (jsonNl (lvl + 1))
          rest jsonNl_ws]
      rfl

theorem members_parse {lvl : Nat} : ∀ {kvs : List (String × Json)}, kvs ≠ [] →
    (∀ kv ∈ kvs, (∀ c ∈ (kv.1 : String).toList, safeChar c = true) ∧ GoodVal (lvl + 1) kv.2) →
    ∀ fu ws rest, (∀ c ∈ ws, isJsonWs c = true) →
      parseMembers (fu + pcostMembers kvs)
          (ws ++ (dumpsMembers (lvl + 1) kvs ++ (jsonNl lvl ++ ('}' :: rest))))
        = some (kvs, rest) := by
  intro kvs
  induction kvs with
  | nil => intro h; exact absurd rfl h
  | cons kv0 rest0 ih =>
    obtain ⟨k, v⟩ := kv0
    intro _ h fu ws rest hws
    obtain ⟨hk, hv⟩ := h (k, v) (by simp)
    cases rest0 with
    | nil =>
      have hfuel : fu + pcostMembers [(k, v)] = (fu + pcost v + 1) + 1 := by
        rw [show pcostMembers [(k, v)] = pcost v + 2 + 0 from rfl]
        omega
      rw [hfuel, parseMembers_eq_body,
        show dumpsMembers (lvl + 1) [(k, v)] =
          dumpsStr k ++ (':' :: ' ' :: dumpsVal (lvl + 1) v) from rfl,
        dumpsStr_safe hk]
      simp only [List.append_assoc, List.cons_append, List.nil_append]
      rw [skipWs_append_ws hws, skipWs_cons_neg (by decide)]
      show (match parseStringBody (k.toList ++ '"' :: (':' :: (' ' ::
            (dumpsVal (lvl + 1) v ++ (jsonNl lvl ++ ('}' :: rest)))))) with
        | none => none
        | some (k2, r) =>
          match skipWs r with
          | ':' :: r2 =>
            match parseValue (fu + pcost v + 1) r2 with
            | none => none
            | some (v2, r3) =>
              match skipWs r3 with
              | ',' :: r4 => (parseMembers (fu + pcost v + 1) r4).map
                  fun p => ((String.mk k2, v2) :: p.1, p.2)
              | '}' :: r4 => some ([(String.mk k2, v2)], r4)
              | _ => none
          | _ => none)
        = some ([(k, v)], rest)
      rw [parseStringBody_safe hk]
      show (match skipWs (':' :: (' ' :: (dumpsVal (lvl + 1) v ++
            (jsonNl lvl ++ ('}' :: rest))))) with
        | ':' :: r2 =>
          match parseValue (fu + pcost v + 1) r2 with
          | none => none
          | some (v2, r3) =>
            match skipWs r3 with
            | ',' :: r4 => (parseMembers (fu + pcost v + 1) r4).map
                fun p => ((String.mk k.toList, v2) :: p.1, p.2)
            | '}' :: r4 => some ([(String.mk k.toList, v2)], r4)
            | _ => none
        | _ => none)
        = some ([(k, v)], rest)
      rw [skipWs_cons_neg (by decide)]
      show (match parseValue (fu + pcost v + 1) (' ' :: (dumpsVal (lvl + 1) v ++
            (jsonNl lvl ++ ('}' :: rest)))) with
        | none => none
        | some (v2, r3) =>
          match skipWs r3 with
          | ',' :: r4 => (parseMembers (fu + pcost v + 1) r4).map
              fun p => ((String.mk k.toList, v2) :: p.1, p.2)
          | '}' :: r4 => some ([(String.mk k.toList, v2)], r4)
          | _ => none)
        = some ([(k, v)], rest)
      rw [show (' ' :: (dumpsVal (lvl + 1) v ++ (jsonNl lvl ++ ('}' :: rest))) : List Char)
          = [' '] ++ (dumpsVal (lvl + 1) v ++ (jsonNl lvl ++ ('}' :: rest))) from rfl,
        hv.1 fu [' '] (jsonNl lvl ++ ('}' :: rest)) (by decide)]
      show (match skipWs (jsonNl lvl ++ ('}' :: rest)) with
        | ',' :: r4 => (parseMembers (fu + pcost v + 1) r4).map
            fun p => ((String.mk k.toList, v) :: p.1, p.2)
        | '}' :: r4 => some ([(String.mk k.toList, v)], r4)
        | _ => none)
        = some ([(k, v)], rest)
      rw [skipWs_append_ws jsonNl_ws, skipWs_cons_neg (by decide), stringMk_toList]
      rfl
    | cons kv2 rest' =>
      have hfuel : fu + pcostMembers ((k, v) :: kv2 :: rest') =
          ((fu + pcostMembers (kv2 :: rest')) + pcost v + 1) + 1 := by
        rw [show pcostMembers ((k, v) :: kv2 :: rest') =
          pcost v + 2 + pcostMembers (kv2 :: rest') from rfl]
        omega
      rw [hfuel, parseMembers_eq_body,
        show dumpsMembers (lvl + 1) ((k, v) :: kv2 :: rest') =
          ((dumpsStr k ++ (':' :: ' ' :: dumpsVal (lvl + 1) v)) ++ (',' :: jsonNl (lvl + 1)))
            ++ dumpsMembers (lvl + 1) (kv2 :: rest') from rfl,
        dumpsStr_safe hk]
      simp only [List.append_assoc, List.cons_append, List.nil_append]
      rw [skipWs_append_ws hws, skipWs_cons_neg (by decide)]
      show (match parseStringBody (k.toList ++ '"' :: (':' :: (' ' ::
            (dumpsVal (lvl + 1) v ++ (',' :: (jsonNl (lvl + 1) ++
              (dumpsMembers (lvl + 1) (kv2 :: rest') ++ (jsonNl lvl ++ ('}' :: rest))))))))) with
        | none => none
        | some (k2, r) =>
          match skipWs r with
          | ':' :: r2 =>
            match parseValue ((fu + pcostMembers (kv2 :: rest')) + pcost v + 1) r2 with
            | none => none
            | some (v2, r3) =>
              match skipWs r3 with
              | ',' :: r4 => (parseMembers ((fu + pcostMembers (kv2 :: rest')) + pcost v + 1)
                  r4).map fun p => ((String.mk k2, v2) :: p.1, p.2)
              | '}' :: r4 => some ([(String.mk k2, v2)], r4)
              | _ => none
          | _ => none)
        = some ((k, v) :: kv2 :: rest', rest)
      rw [parseStringBody_safe hk]
      show (match skipWs (':' :: (' ' :: (dumpsVal (lvl + 1) v ++ (',' :: (jsonNl (lvl + 1) ++
            (dumpsMembers (lvl + 1) (kv2 :: rest') ++ (jsonNl lvl ++ ('}' :: rest)))))))) with
        | ':' :: r2 =>
          match parseValue ((fu + pcostMembers (kv2 :: rest')) + pcost v + 1) r2 with
          | none => none
          | some (v2, r3) =>
            match skipWs r3 with
            | ',' :: r4 => (parseMembers ((fu + pcostMembers (kv2 :: rest')) + pcost v + 1)
                r4).map fun p => ((String.mk k.toList, v2) :: p.1, p.2)
            | '}' :: r4 => some ([(String.mk k.toList, v2)], r4)
            | _ => none
        | _ => none)
        = some ((k, v) :: kv2 :: rest', rest)
      rw [skipWs_cons_neg (by decide)]
      show (match parseValue ((fu + pcostMembers (kv2 :: rest')) + pcost v + 1)
            (' ' :: (dumpsVal (lvl + 1) v ++ (',' :: (jsonNl (lvl + 1) ++
              (dumpsMembers (lvl + 1) (kv2 :: rest') ++ (jsonNl lvl ++ ('}' :: rest))))))) with
        | none => none
        | some (v2, r3) =>
          match skipWs r3 with
          | ',' :: r4 => (parseMembers ((fu + pcostMembers (kv2 :: rest')) + pcost v + 1)
              r4).map fun p => ((String.mk k.toList, v2) :: p.1, p.2)
          | '}' :: r4 => some ([(String.mk k.toList, v2)], r4)
          | _ => none)
        = some ((k, v) :: kv2 :: rest', rest)
      rw [show (' ' :: (dumpsVal (lvl + 1) v ++ (',' :: (jsonNl (lvl + 1) ++
            (dumpsMembers (lvl + 1) (kv2 :: rest') ++ (jsonNl lvl ++ ('}' :: rest))))))
            : List Char)
          = [' '] ++ (dumpsVal (lvl + 1) v ++ (',' :: (jsonNl (lvl + 1) ++
            (dumpsMembers (lvl + 1) (kv2 :: rest') ++ (jsonNl lvl ++ ('}' :: rest))))))
          from rfl,
        hv.1 (fu + pcostMembers (kv2 :: rest')) [' ']
          (',' :: (jsonNl (lvl + 1) ++ (dumpsMembers (lvl + 1) (kv2 :: rest') ++
            (jsonNl lvl ++ ('}' :: rest))))) (by decide)]
      show (match skipWs (',' :: (jsonNl (lvl + 1) ++ (dumpsMembers (lvl + 1) (kv2 :: rest') ++
            (jsonNl lvl ++ ('}' :: rest))))) with
        | ',' :: r4 => (parseMembers ((fu + pcostMembers (kv2 :: rest')) + pcost v + 1)
            r4).map fun p => ((String.mk k.toList, v) :: p.1, p.2)
        | '}' :: r4 => some ([(String.mk k.toList, v)], r4)
        | _ => none)
        = some ((k, v) :: kv2 :: rest', rest)
      rw [skipWs_cons_neg (by decide)]
      show (parseMembers ((fu + pcostMembers (kv2 :: rest')) + pcost v + 1)
          (jsonNl (lvl + 1) ++ (dumpsMembers (lvl + 1) (kv2 :: rest') ++
            (jsonNl lvl ++ ('}' :: rest))))).map
          (fun p => ((String.mk k.toList, v) :: p.1, p.2))
        = some ((k, v) :: kv2 :: rest', rest)
      have harith : (fu + pcostMembers (kv2 :: rest')) + pcost v + 1 =
          (fu + pcost v + 1) + pcostMembers (kv2 :: rest') := by omega
      rw [harith,
        ih (by simp) (fun z hz => h z (by simp [hz])) (fu + pcost v + 1) (jsonNl (lvl + 1))
          rest jsonNl_ws, stringMk_toList]
      rfl

theorem arr_goodVal {lvl : Nat} {xs : List Json} (h : ∀ x ∈ xs, GoodVal (lvl + 1) x) :
    GoodVal lvl (.arr xs) := by
  constructor
  · intro fu ws rest hws
    cases xs with
    | nil =>
      rw [show dumpsVal lvl (.arr ([] : List Json)) = ['[', ']'] from rfl, parseValue_eq_body,
        show ((['[', ']'] : List Char) ++ rest) = '[' :: (']' :: rest) from rfl]
      rw [skipWs_append_ws hws, skipWs_cons_neg (by decide)]
      show (match skipWs (']' :: rest) with
        | ']' :: r => some (Json.arr [], r)
        | u => (parseItems (fu + pcost (Json.arr ([] : List Json))) u).map
            fun p => (Json.arr p.1, p.2))
        = some (.arr [], rest)
      rw [skipWs_cons_neg (by decide)]
      rfl
    | cons x xs' =>
      have hfuel : fu + pcost (.arr (x :: xs')) + 1 = ((fu + 1) + pcostItems (x :: xs')) + 1 := by
        rw [show pcost (.arr (x :: xs')) = pcostItems (x :: xs') + 1 from rfl]
        omega
      rw [hfuel, parseValue_eq_body,
        show dumpsVal lvl (.arr (x :: xs')) =
          ((('[' :: jsonNl (lvl + 1)) ++ dumpsItems (lvl + 1) (x :: xs')) ++ jsonNl lvl) ++ [']']
          from rfl,
        show (((('[' :: jsonNl (lvl + 1)) ++ dumpsItems (lvl + 1) (x :: xs')) ++ jsonNl lvl)
            ++ [']']) ++ rest
          = '[' :: (jsonNl (lvl + 1) ++ (dumpsItems (lvl + 1) (x :: xs') ++
            (jsonNl lvl ++ (']' :: rest)))) from by simp]
      rw [skipWs_append_ws hws, skipWs_cons_neg (by decide)]
      show (match skipWs (jsonNl (lvl + 1) ++ (dumpsItems (lvl + 1) (x :: xs') ++
            (jsonNl lvl ++ (']' :: rest)))) with
        | ']' :: r => some (Json.arr [], r)
        | u => (parseItems ((fu + 1) + pcostItems (x :: xs')) u).map
            fun p => (Json.arr p.1, p.2))
        = some (.arr (x :: xs'), rest)
      obtain ⟨c0, w0, hw0, hs0, hne0, _⟩ := (h x (by simp)).2
      have hitems : ∃ W, dumpsItems (lvl + 1) (x :: xs') = c0 :: W := by
        cases xs' with
        | nil =>
          exact ⟨w0, by
            rw [show dumpsItems (lvl + 1) [x] = dumpsVal (lvl + 1) x from rfl, hw0]⟩
        | cons y ys =>
          refine ⟨w0 ++ ((',' :: jsonNl (lvl + 1)) ++ dumpsItems (lvl + 1) (y :: ys)), ?_⟩
          rw [show dumpsItems (lvl + 1) (x :: y :: ys) =
            (dumpsVal (lvl + 1) x ++ (',' :: jsonNl (lvl + 1))) ++ dumpsItems (lvl + 1) (y :: ys)
            from rfl, hw0]
          simp
      obtain ⟨W, hW⟩ := hitems
      have hskip : skipWs (jsonNl (lvl + 1) ++ (dumpsItems (lvl + 1) (x :: xs') ++
          (jsonNl lvl ++ (']' :: rest)))) =
          dumpsItems (lvl + 1) (x :: xs') ++ (jsonNl lvl ++ (']' :: rest)) := by
        rw [skipWs_append_ws jsonNl_ws, hW, List.cons_append, skipWs_cons_neg hs0,
          ← List.cons_append, ← hW]
      rw [hskip]
      split
      · rename_i heq
        rw [hW, List.cons_append] at heq
        injection heq with h1 _
        exact absurd h1 hne0
      · have hi := @items_parse lvl (x :: xs') (by simp) h (fu + 1) [] rest (by simp)
        simp only [List.nil_append] at hi
        rw [hi]
        rfl
  · cases xs with
    | nil => exact ⟨'[', [']'], rfl, by decide, by decide, by decide⟩
    | cons x xs' =>
      refine ⟨'[', jsonNl (lvl + 1) ++ (dumpsItems (lvl + 1) (x :: xs') ++
        (jsonNl lvl ++ [']'])), ?_, by decide, by decide, by decide⟩
      rw [show dumpsVal lvl (.arr (x :: xs')) =
        ((('[' :: jsonNl (lvl + 1)) ++ dumpsItems (lvl + 1) (x :: xs')) ++ jsonNl lvl) ++ [']']
        from rfl]
      simp [List.append_assoc]

theorem obj_goodVal {lvl : Nat} {kvs : List (String × Json)} (hne : kvs ≠ [])
    (h : ∀ kv ∈ kvs, (∀ c ∈ (kv.1 : String).toList, safeChar c = true) ∧ GoodVal (lvl + 1) kv.2)
    (hdedup : dedupKeys kvs = kvs) : GoodVal lvl (.obj kvs) := by
  constructor
  · intro fu ws rest hws
    cases kvs with
    | nil => exact absurd rfl hne
    | cons kv0 kvs' =>
      obtain ⟨k, v⟩ := kv0
      have hfuel : fu + pcost (.obj ((k, v) :: kvs')) + 1 =
          ((fu + 1) + pcostMembers ((k, v) :: kvs')) + 1 := by
        rw [show pcost (.obj ((k, v) :: kvs')) = pcostMembers ((k, v) :: kvs') + 1 from rfl]
        omega
      rw [hfuel, parseValue_eq_body,
        show dumpsVal lvl (.obj ((k, v) :: kvs')) =
          ((('{' :: jsonNl (lvl + 1)) ++ dumpsMembers (lvl + 1) ((k, v) :: kvs')) ++ jsonNl lvl)
            ++ ['}'] from rfl,
        show (((('{' :: jsonNl (lvl + 1)) ++ dumpsMembers (lvl + 1) ((k, v) :: kvs'))
            ++ jsonNl lvl) ++ ['}']) ++ rest
          = '{' :: (jsonNl (lvl + 1) ++ (dumpsMembers (lvl + 1) ((k, v) :: kvs') ++
            (jsonNl lvl ++ ('}' :: rest)))) from by simp]
      rw [skipWs_append_ws hws, skipWs_cons_neg (by decide)]
      show (match skipWs (jsonNl (lvl + 1) ++ (dumpsMembers (lvl + 1) ((k, v) :: kvs') ++
            (jsonNl lvl ++ ('}' :: rest)))) with
        | '}' :: r => some (Json.obj [], r)
        | u => (parseMembers ((fu + 1) + pcostMembers ((k, v) :: kvs')) u).map
            fun p => (Json.obj (dedupKeys p.1), p.2))
        = some (.obj ((k, v) :: kvs'), rest)
      have hmem : ∃ W, dumpsMembers (lvl + 1) ((k, v) :: kvs') = '"' :: W := by
        cases kvs' with
        | nil =>
          rw [show dumpsMembers (lvl + 1) [(k, v)] =
            dumpsStr k ++ (':' :: ' ' :: dumpsVal (lvl + 1) v) from rfl,
            dumpsStr_safe (h (k, v) (by simp)).1]
          exact ⟨_, by rw [List.cons_append]⟩
        | cons kv2 rest' =>
          rw [show dumpsMembers (lvl + 1) ((k, v) :: kv2 :: rest') =
            ((dumpsStr k ++ (':' :: ' ' :: dumpsVal (lvl + 1) v)) ++ (',' :: jsonNl (lvl + 1)))
              ++ dumpsMembers (lvl + 1) (kv2 :: rest') from rfl,
            dumpsStr_safe (h (k, v) (by simp)).1]
          refine ⟨k.toList ++ ('"' :: (':' :: (' ' :: (dumpsVal (lvl + 1) v ++
            (',' :: (jsonNl (lvl + 1) ++ dumpsMembers (lvl + 1) (kv2 :: rest'))))))), ?_⟩
          simp
      obtain ⟨W, hW⟩ := hmem
      have hskip : skipWs (jsonNl (lvl + 1) ++ (dumpsMembers (lvl + 1) ((k, v) :: kvs') ++
          (jsonNl lvl ++ ('}' :: rest)))) =
          dumpsMembers (lvl + 1) ((k, v) :: kvs') ++ (jsonNl lvl ++ ('}' :: rest)) := by
        rw [skipWs_append_ws jsonNl_ws, hW, List.cons_append, skipWs_cons_neg (by decide),
          ← List.cons_append, ← hW]
      rw [hskip]
      split
      · rename_i heq
        rw [hW, List.cons_append] at heq
        injection heq with h1 _
        exact absurd h1 (by decide)
      · have hm := @members_parse lvl ((k, v) :: kvs') (by simp) h (fu + 1) [] rest (by simp)
        simp only [List.nil_append] at hm
        rw [hm]
        show some (Json.obj (dedupKeys ((k, v) :: kvs')), rest) = some (.obj ((k, v) :: kvs'), rest)
        rw [hdedup]
  · cases kvs with
    | nil => exact absurd rfl hne
    | cons kv0 kvs' =>
      refine ⟨'{', jsonNl (lvl + 1) ++ (dumpsMembers (lvl + 1) (kv0 :: kvs') ++
        (jsonNl lvl ++ ['}'])), ?_, by decide, by decide, by decide⟩
      rw [show dumpsVal lvl (.obj (kv0 :: kvs')) =
        ((('{' :: jsonNl (lvl + 1)) ++ dumpsMembers (lvl + 1) (kv0 :: kvs')) ++ jsonNl lvl)
          ++ ['}'] from rfl]
      simp [List.append_assoc]

theorem dedup_paddy_keys (v1 v2 v3 : Json) :
    dedupKeys [("name", v1), ("price", v2), ("unit", v3)] =
      [("name", v1), ("price", v2), ("unit", v3)] := rfl

theorem dedup_record_keys (v1 v2 v3 v4 v5 : Json) :
    dedupKeys [("name", v1), ("contact", v2), ("rating", v3), ("regions", v4),
        ("paddyTypes", v5)] =
      [("name", v1), ("contact", v2), ("rating", v3), ("regions", v4), ("paddyTypes", v5)] := rfl

theorem paddy_goodVal {lvl : Nat} {p : Paddy} (h1 : SafeField p.name) (h2 : SafeField p.price)
    (h3 : SafeField p.unit) : GoodVal lvl (paddyToJson p) := by
  rw [paddyToJson]
  refine obj_goodVal (by simp) ?_ (dedup_paddy_keys _ _ _)
  intro kv hkv
  simp only [List.mem_cons, List.not_mem_nil, or_false] at hkv
  rcases hkv with rfl | rfl | rfl
  · exact ⟨(by decide : ∀ c ∈ ("name" : String).toList, safeChar c = true), str_goodVal h1⟩
  · exact ⟨(by decide : ∀ c ∈ ("price" : String).toList, safeChar c = true), str_goodVal h2⟩
  · exact ⟨(by decide : ∀ c ∈ ("unit" : String).toList, safeChar c = true), str_goodVal h3⟩

theorem record_goodVal {lvl : Nat} {r : Record} (hr : SafeRecord r) :
    GoodVal lvl (recordToJson r) := by
  have hname : SafeField r.name := hr _ (by simp [recordFields])
  have hcontact : SafeField r.contact := hr _ (by simp [recordFields])
  have hrating : SafeField r.rating := hr _ (by simp [recordFields])
  have hregions : ∀ f ∈ r.regions, SafeField f := fun f hf =>
    hr f (by simp [recordFields, hf])
  have hps : ∀ p ∈ r.paddyTypes, SafeField p.name ∧ SafeField p.price ∧ SafeField p.unit := by
    intro p hp
    refine ⟨hr _ ?_, hr _ ?_, hr _ ?_⟩ <;>
    · simp only [recordFields, List.mem_append, List.mem_flatten, List.mem_map]
      exact Or.inr ⟨[p.name, p.price, p.unit], ⟨p, hp, rfl⟩, by simp⟩
  rw [recordToJson]
  refine obj_goodVal (by simp) ?_ (dedup_record_keys _ _ _ _ _)
  intro kv hkv
  simp only [List.mem_cons, List.not_mem_nil, or_false] at hkv
  rcases hkv with rfl | rfl | rfl | rfl | rfl
  · exact ⟨(by decide : ∀ c ∈ ("name" : String).toList, safeChar c = true), str_goodVal hname⟩
  · exact ⟨(by decide : ∀ c ∈ ("contact" : String).toList, safeChar c = true), str_goodVal hcontact⟩
  · exact ⟨(by decide : ∀ c ∈ ("rating" : String).toList, safeChar c = true), str_goodVal hrating⟩
  · refine ⟨(by decide : ∀ c ∈ ("regions" : String).toList, safeChar c = true),
      arr_goodVal fun x hx => ?_⟩
    rcases List.mem_map.mp hx with ⟨f, hf, rfl⟩
    exact str_goodVal (hregions f hf)
  · refine ⟨(by decide : ∀ c ∈ ("paddyTypes" : String).toList, safeChar c = true),
      arr_goodVal fun x hx => ?_⟩
    rcases List.mem_map.mp hx with ⟨p, hp, rfl⟩
    exact paddy_goodVal (hps p hp).1 (hps p hp).2.1 (hps p hp).2.2

theorem top_goodVal {R : List Record} (h : ∀ r ∈ R, SafeRecord r) :
    GoodVal 0 (.arr (R.map recordToJson)) :=
  arr_goodVal fun x hx => by
    rcases List.mem_map.mp hx with ⟨r, hrm, rfl⟩
    exact record_goodVal (h r hrm)

/-! ### The fuel budget of `jsonLoads` covers serializer output -/

theorem len_dumpsStr (f : String) : 2 ≤ (dumpsStr f).length := by
  rw [dumpsStr]
  simp

theorem pcostItems_le {lvl : Nat} : ∀ {xs : List Json},
    (∀ x ∈ xs, pcost x + 1 ≤ (dumpsVal lvl x).length) →
    pcostItems xs ≤ (dumpsItems lvl xs).length + 1 := by
  intro xs
  induction xs with
  | nil => intro _; rw [show pcostItems ([] : List Json) = 0 from rfl]; omega
  | cons x ys ih =>
    intro h
    cases ys with
    | nil =>
      rw [show pcostItems [x] = pcost x + 2 + 0 from rfl,
        show dumpsItems lvl [x] = dumpsVal lvl x from rfl]
      have h1 := h x (by simp)
      omega
    | cons y ys' =>
      rw [show pcostItems (x :: y :: ys') = pcost x + 2 + pcostItems (y :: ys') from rfl,
        show dumpsItems lvl (x :: y :: ys') =
          (dumpsVal lvl x ++ (',' :: jsonNl lvl)) ++ dumpsItems lvl (y :: ys') from rfl]
      have h1 := h x (by simp)
      have h2 := ih fun z hz => h z (by simp [hz])
      simp only [List.length_append, List.length_cons, jsonNl, List.length_replicate]
      omega

theorem pcostMembers_le {lvl : Nat} : ∀ {kvs : List (String × Json)},
    (∀ kv ∈ kvs, pcost kv.2 + 1 ≤ (dumpsVal lvl kv.2).length) →
    pcostMembers kvs ≤ (dumpsMembers lvl kvs).length + 1 := by
  intro kvs
  induction kvs with
  | nil => intro _; rw [show pcostMembers ([] : List (String × Json)) = 0 from rfl]; omega
  | cons kv rest ih =>
    obtain ⟨k, v⟩ := kv
    intro h
    cases rest with
    | nil =>
      rw [show pcostMembers [(k, v)] = pcost v + 2 + 0 from rfl,
        show dumpsMembers lvl [(k, v)] = dumpsStr k ++ (':' :: ' ' :: dumpsVal lvl v) from rfl]
      have h1 : pcost v + 1 ≤ (dumpsVal lvl v).length := h (k, v) (by simp)
      have h2 := len_dumpsStr k
      simp only [List.length_append, List.length_cons]
      omega
    | cons kv2 rest' =>
      rw [show pcostMembers ((k, v) :: kv2 :: rest') =
          pcost v + 2 + pcostMembers (kv2 :: rest') from rfl,
        show dumpsMembers lvl ((k, v) :: kv2 :: rest') =
          ((dumpsStr k ++ (':' :: ' ' :: dumpsVal lvl v)) ++ (',' :: jsonNl lvl))
            ++ dumpsMembers lvl (kv2 :: rest') from rfl]
      have h1 : pcost v + 1 ≤ (dumpsVal lvl v).length := h (k, v) (by simp)
      have h2 := ih fun z hz => h z (by simp [hz])
      have h3 := len_dumpsStr k
      simp only [List.length_append, List.length_cons, jsonNl, List.length_replicate]
      omega

theorem pcost_str_le (lvl : Nat) (f : String) :
    pcost (.str f) + 1 ≤ (dumpsVal lvl (.str f)).length := by
  rw [show pcost (.str f) = 0 from rfl, show dumpsVal lvl (.str f) = dumpsStr f from rfl]
  have := len_dumpsStr f
  omega

theorem pcost_arr_le {lvl : Nat} {xs : List Json}
    (h : ∀ x ∈ xs, pcost x + 1 ≤ (dumpsVal (lvl + 1) x).length) :
    pcost (.arr xs) + 1 ≤ (dumpsVal lvl (.arr xs)).length := by
  cases xs with
  | nil =>
    rw [show pcost (.arr ([] : List Json)) = 0 from rfl,
      show dumpsVal lvl (.arr ([] : List Json)) = ['[', ']'] from rfl]
    simp
  | cons x xs' =>
    rw [show pcost (.arr (x :: xs')) = pcostItems (x :: xs') + 1 from rfl,
      show dumpsVal lvl (.arr (x :: xs')) =
        ((('[' :: jsonNl (lvl + 1)) ++ dumpsItems (lvl + 1) (x :: xs')) ++ jsonNl lvl) ++ [']']
        from rfl]
    have h2 := @pcostItems_le (lvl + 1) (x :: xs') h
    simp only [List.length_append, List.length_cons, jsonNl, List.length_replicate]
    omega

theorem pcost_obj_le {lvl : Nat} {kvs : List (String × Json)}
    (h : ∀ kv ∈ kvs, pcost kv.2 + 1 ≤ (dumpsVal (lvl + 1) kv.2).length) :
    pcost (.obj kvs) + 1 ≤ (dumpsVal lvl (.obj kvs)).length := by
  cases kvs with
  | nil =>
    rw [show pcost (.obj ([] : List (String × Json))) = 0 from rfl,
      show dumpsVal lvl (.obj ([] : List (String × Json))) = ['{', '}'] from rfl]
    simp
  | cons kv kvs' =>
    rw [show pcost (.obj (kv :: kvs')) = pcostMembers (kv :: kvs') + 1 from rfl,
      show dumpsVal lvl (.obj (kv :: kvs')) =
        ((('{' :: jsonNl (lvl + 1)) ++ dumpsMembers (lvl + 1) (kv :: kvs')) ++ jsonNl lvl)
          ++ ['}'] from rfl]
    have h2 := @pcostMembers_le (lvl + 1) (kv :: kvs') h
    simp only [List.length_append, List.length_cons, jsonNl, List.length_replicate]
    omega

theorem pcost_paddy_le (lvl : Nat) (p : Paddy) :
    pcost (paddyToJson p) + 1 ≤ (dumpsVal lvl (paddyToJson p)).length := by
  rw [paddyToJson]
  apply pcost_obj_le
  intro kv hkv
  simp only [List.mem_cons, List.not_mem_nil, or_false] at hkv
  rcases hkv with rfl | rfl | rfl <;> exact pcost_str_le _ _

theorem pcost_record_le (lvl : Nat) (r : Record) :
    pcost (recordToJson r) + 1 ≤ (dumpsVal lvl (recordToJson r)).length := by
  rw [recordToJson]
  apply pcost_obj_le
  intro kv hkv
  simp only [List.mem_cons, List.not_mem_nil, or_false] at hkv
  rcases hkv with rfl | rfl | rfl | rfl | rfl
  · exact pcost_str_le _ _
  · exact pcost_str_le _ _
  · exact pcost_str_le _ _
  · apply pcost_arr_le
    intro x hx
    rcases List.mem_map.mp hx with ⟨f, _, rfl⟩
    exact pcost_str_le _ _
  · apply pcost_arr_le
    intro x hx
    rcases List.mem_map.mp hx with ⟨p2, _, rfl⟩
    exact pcost_paddy_le _ _

theorem pcost_top_le (R : List Record) :
    pcost (.arr (R.map recordToJson)) + 1 ≤ (dumpsVal 0 (.arr (R.map recordToJson))).length := by
  apply pcost_arr_le
  intro x hx
  rcases List.mem_map.mp hx with ⟨r, _, rfl⟩
  exact pcost_record_le _ _

/-- `json.loads` inverts `json.dumps` on a value whose string contents the
pipeline leaves alone. -/
theorem jsonLoads_dumps {v : Json} (hv : GoodVal 0 v)
    (hb : pcost v + 1 ≤ (dumpsVal 0 v).length) :
    jsonLoads (dumpsVal 0 v) = some v := by
  have hfu : 4 * (dumpsVal 0 v).length + 4 =
      (4 * (dumpsVal 0 v).length + 3 - pcost v) + pcost v + 1 := by omega
  have hpar := hv.1 (4 * (dumpsVal 0 v).length + 3 - pcost v) [] [] (by simp)
  simp only [List.nil_append, List.append_nil] at hpar
  rw [jsonLoads, hfu, hpar]
  rfl

/-! ### Assembling the record round trip -/

theorem good_char_facts {c : Char} (h : c ∈ dumpsFixedChars ∨ safeChar c = true) :
    c ≠ '\\' ∧ c ≠ Char.ofNat 0xe2 ∧ c ≠ Char.ofNat 0xf0 := by
  rcases h with hf | hs
  · have hd : ∀ x ∈ dumpsFixedChars,
        x ≠ '\\' ∧ x ≠ Char.ofNat 0xe2 ∧ x ≠ Char.ofNat 0xf0 := by decide
    exact hd c hf
  · simp only [safeChar, Bool.and_eq_true, decide_eq_true_eq] at hs
    exact ⟨hs.1.1.2, hs.1.2, hs.2⟩

theorem quoteKeys_id_of_QK {l : List Char} (h : QK l) : quoteKeys l = l := by
  have h0 := h []
  simpa [quoteKeys, qkGo] using h0

/-- Scanning for the close `];`: when the text before the designated close
contains no `];`, the non-greedy wildcard captures exactly that text. -/
theorem findLit_semi : ∀ v : List Char, noCloseSemi v = true → ∀ rest,
    findLit ']' [';'] (v ++ ']' :: ';' :: rest) = some (v, rest) := by
  intro v
  induction v with
  | nil => intro _ rest; rfl
  | cons c v' ih =>
    intro hv rest
    rw [List.cons_append]
    have hstep : findLit ']' [';'] (c :: (v' ++ ']' :: ';' :: rest)) =
        match chopLit (']' :: [';']) (c :: (v' ++ ']' :: ';' :: rest)) with
        | some r => some ([], r)
        | none => (findLit ']' [';'] (v' ++ ']' :: ';' :: rest)).map
            fun q => (c :: q.1, q.2) := rfl
    rw [hstep]
    have hchop : chopLit (']' :: [';']) (c :: (v' ++ ']' :: ';' :: rest)) = none := by
      show (if ']' = c then chopLit [';'] (v' ++ ']' :: ';' :: rest) else none) = none
      by_cases hc : ']' = c
      · rw [if_pos hc]
        cases v' with
        | nil => rfl
        | cons d v'' =>
          have hd : ¬ (c = ']' ∧ d = ';') := noCloseSemi_pair hv
          show (if ';' = d then chopLit ([] : List Char) (v'' ++ ']' :: ';' :: rest)
            else none) = none
          rw [if_neg fun he => hd ⟨hc.symm, he.symm⟩]
      · rw [if_neg hc]
    rw [hchop, ih (noCloseSemi_tail hv) rest]
    rfl

/-- The leftmost match of the statement pattern on a document made of a
`'c'`-free prefix, the statement with a `];`-free interior, and a suffix. -/
theorem findSpan_stmt (inner pre suf : List Char)
    (hpre : ∀ c ∈ pre, c ≠ 'c') (hinner : noCloseSemi inner = true) :
    findSpan stmtOpenLit ']' [';'] (pre ++ (stmtOpenLit ++ (inner ++ (']' :: ';' :: suf))))
      = some (pre, inner, suf) := by
  have hnomatch : ∀ i, i < pre.length →
      matchSpan stmtOpenLit ']' [';']
        (pre.drop i ++ (stmtOpenLit ++ (inner ++ (']' :: ';' :: suf)))) = none := by
    intro i hi
    have hne : pre.drop i ≠ [] := by
      intro h0
      rw [List.drop_eq_nil_iff] at h0
      omega
    obtain ⟨c', t', hct⟩ := List.exists_cons_of_ne_nil hne
    rw [hct, List.cons_append,
      show stmtOpenLit = 'c' :: "onst dealersData = [".toList from rfl]
    have hc' : c' ∈ pre := List.drop_subset i pre (by rw [hct]; exact List.mem_cons_self c' t')
    exact matchSpan_head_ne _ (hpre c' hc')
  rw [findSpan_skip pre (stmtOpenLit ++ (inner ++ (']' :: ';' :: suf))) hnomatch]
  have hm : matchSpan stmtOpenLit ']' [';']
      (stmtOpenLit ++ (inner ++ (']' :: ';' :: suf))) = some (inner, suf) := by
    unfold matchSpan
    rw [chopLit_refl]
    show findLit ']' [';'] (inner ++ ']' :: ';' :: suf) = some (inner, suf)
    exact findLit_semi inner hinner suf
  rw [findSpan_of_match (by decide) hm]
  simp

/-- C1 as amended: the record round trip holds for safe field texts, not
for every valid record list.  For a list `R` of records whose string
fields contain no character that `json.dumps` escapes (`"`, `\`, control
characters), no lead byte of a garbled glyph, no `];`, and no colon — so
the key-quoting substitution `re.sub(r'(\w+):', ...)` cannot fire inside a
field, whether `\w` is read over ASCII as in this embedding or over full
Unicode as Python reads it, since the field's `"` delimiters bound every
word run and no run inside the field is followed by `:` — and a document
made of a `'c'`-free prefix, the designated assignment statement with a
`];`-free interior, and a `'c'`-free suffix, decoding the document
produced by encode-records on `R` yields exactly the serialized form of
`R`, field-for-field.  (Validity of the records in the sense of the data
model is neither sufficient — see the counterexample, whose record is
valid but has `];` in its name — nor needed for the round trip.) -/
theorem C1_amended_record_roundtrip (R : List Record) (pre mid suf : List Char)
    (hR : ∀ r ∈ R, SafeRecord r)
    (hpre : ∀ c ∈ pre, c ≠ 'c') (hmid : noCloseSemi mid = true)
    (hsuf : ∀ c ∈ suf, c ≠ 'c') :
    extract_dealers_data (update_dealers_in_html
        (String.mk (pre ++ (stmtOpenLit ++ (mid ++ (']' :: ';' :: suf))))) R)
      = R.map recordToJson := by
  obtain ⟨⟨hchars, hnc, _⟩, hqk⟩ := goodChunk_top hR
  have hinner : noCloseSemi (arrInner (R.map recordToJson)) = true := by
    have h1 : noCloseSemi (dumpsVal 0 (.arr (R.map recordToJson))) = true := hnc
    rw [dumps_arr0_eq] at h1
    exact noCloseSemi_of_append_left (noCloseSemi_tail h1)
  have hrep : applyTemplate
      (stmtLit ++ dumpsVal 0 (.arr (R.map recordToJson)) ++ [';']) =
      some (stmtLit ++ dumpsVal 0 (.arr (R.map recordToJson)) ++ [';']) := by
    apply applyTemplate_id
    intro c hc
    rcases List.mem_append.mp hc with hc | hc
    · rcases List.mem_append.mp hc with hc | hc
      · exact (by decide : ∀ x ∈ stmtLit, x ≠ '\\') c hc
      · exact (good_char_facts (hchars c hc)).1
    · simp at hc; rw [hc]; decide
  have hu1 : update_dealers_in_html
      (String.mk (pre ++ (stmtOpenLit ++ (mid ++ (']' :: ';' :: suf))))) R =
      match applyTemplate (stmtLit ++ dumpsVal 0 (.arr (R.map recordToJson)) ++ [';']) with
      | none => String.mk (pre ++ (stmtOpenLit ++ (mid ++ (']' :: ';' :: suf))))
      | some rep => String.mk (subSpanAll stmtOpenLit ']' [';'] rep
          (pre ++ (stmtOpenLit ++ (mid ++ (']' :: ';' :: suf))))) := rfl
  rw [hu1, hrep]
  show extract_dealers_data (String.mk (subSpanAll stmtOpenLit ']' [';']
      (stmtLit ++ dumpsVal 0 (.arr (R.map recordToJson)) ++ [';'])
      (pre ++ (stmtOpenLit ++ (mid ++ (']' :: ';' :: suf)))))) = R.map recordToJson
  have hfs2 : findSpan stmtOpenLit ']' [';'] suf = none := by
    rw [show stmtOpenLit = 'c' :: "onst dealersData = [".toList from rfl]
    exact findSpan_none_of_all_ne suf hsuf
  have hsub : subSpanAll stmtOpenLit ']' [';']
      (stmtLit ++ dumpsVal 0 (.arr (R.map recordToJson)) ++ [';'])
      (pre ++ (stmtOpenLit ++ (mid ++ (']' :: ';' :: suf)))) =
      pre ++ (stmtLit ++ dumpsVal 0 (.arr (R.map recordToJson)) ++ [';']) ++ suf := by
    rw [subSpanAll_eq_match, findSpan_stmt mid pre suf hpre hmid]
    show pre ++ (stmtLit ++ dumpsVal 0 (.arr (R.map recordToJson)) ++ [';']) ++
        subSpanAll stmtOpenLit ']' [';']
          (stmtLit ++ dumpsVal 0 (.arr (R.map recordToJson)) ++ [';']) suf =
      pre ++ (stmtLit ++ dumpsVal 0 (.arr (R.map recordToJson)) ++ [';']) ++ suf
    rw [subSpanAll_of_none hfs2]
  rw [hsub]
  have hshape : pre ++ (stmtLit ++ dumpsVal 0 (.arr (R.map recordToJson)) ++ [';']) ++ suf
      = pre ++ (stmtOpenLit ++ (arrInner (R.map recordToJson) ++ (']' :: ';' :: suf))) := by
    rw [dumps_arr0_eq, stmtOpenLit]
    simp
  rw [hshape]
  have hext : extract_dealers_data (String.mk
      (pre ++ (stmtOpenLit ++ (arrInner (R.map recordToJson) ++ (']' :: ';' :: suf))))) =
      match findSpan stmtOpenLit ']' [';']
        (pre ++ (stmtOpenLit ++ (arrInner (R.map recordToJson) ++ (']' :: ';' :: suf)))) with
      | none => []
      | some (_, inner, _) =>
        match jsonLoads (fixGlyphs (quoteKeys ('[' :: inner ++ [']']))) with
        | some (.arr l) => l
        | _ => [] := rfl
  rw [hext, findSpan_stmt (arrInner (R.map recordToJson)) pre suf hpre hinner]
  show (match jsonLoads (fixGlyphs (quoteKeys
      ('[' :: arrInner (R.map recordToJson) ++ [']']))) with
    | some (.arr l) => l
    | _ => []) = R.map recordToJson
  have hD : '[' :: arrInner (R.map recordToJson) ++ [']'] =
      dumpsVal 0 (.arr (R.map recordToJson)) := by
    rw [dumps_arr0_eq, List.cons_append]
  rw [hD, quoteKeys_id_of_QK hqk,
    fixGlyphs_id (fun c hc => (good_char_facts (hchars c hc)).2.1)
      (fun c hc => (good_char_facts (hchars c hc)).2.2),
    jsonLoads_dumps (top_goodVal hR) (pcost_top_le R)]

set_option maxRecDepth 8000 in
set_option maxHeartbeats 2000000 in
/-- Witness for the amended C1 at a concrete safe record list and a
concrete document. -/
theorem C1_amended_record_roundtrip_witness :
    extract_dealers_data (update_dealers_in_html
        (String.mk ("<p>".toList ++ (stmtOpenLit ++ ([] ++ (']' :: ';' :: "</p>".toList)))))
        [⟨"A", "1", "5", ["X"], [⟨"Rice", "100", "per quintal"⟩]⟩])
      = [⟨"A", "1", "5", ["X"], [⟨"Rice", "100", "per quintal"⟩]⟩].map recordToJson :=
  C1_amended_record_roundtrip [⟨"A", "1", "5", ["X"], [⟨"Rice", "100", "per quintal"⟩]⟩]
    "<p>".toList [] "</p>".toList (by decide) (by decide) (by decide) (by decide)

end Dhanvikri
